import Mathlib

/-!
Verification of the NetworkSedimentTransporter (NST) semantics driven by the
NST-Clinic-CSDMS-2025 notebooks.

The repository's notebooks configure a Landlab `NetworkModelGrid`, initialize
sediment parcels, and drive `nst.run_one_step(dt)` in three configurations
(baseline, recycling, pulse).  The transport engine itself lives in the external
Landlab dependency, so, following the spec, the engine and the parcel-store
contract are modelled here from the spec's own words (each such definition is
marked `Modelled from the spec:`).  The notebook-level recycling and pulse
blocks, which are source code of this repository, are embedded directly from
the notebook cells.

Quantities are rationals (`ℚ`); reach indices are integers with the notebook's
out-of-network sentinel `OUT_OF_NETWORK = BAD_INDEX - 1 = -2`.
-/

/-- Embedded from the notebook: `NetworkModelGrid.BAD_INDEX` (-1 for a network grid). -/
def BAD_INDEX : Int := -1

/-- Embedded from the notebook cell `OUT_OF_NETWORK = NetworkModelGrid.BAD_INDEX - 1`:
the out-of-network sentinel reach index (-2). -/
def OUT_OF_NETWORK : Int := BAD_INDEX - 1

/-- Modelled from the spec: the error taxonomy of section 7
(`InvalidReachError`, `OutOfRangeError`, `InvalidHydraulicStateError`,
`TopologyDegenerateError`). -/
inductive NSTError where
  | invalidReach
  | outOfRange
  | invalidHydraulicState
  | topologyDegenerate
deriving DecidableEq, Repr

/-- Modelled from the spec: one per-timestep history entry of a parcel — the
containing reach (`element_id`, a valid reach index or `OUT_OF_NETWORK`),
the fractional position (`location_in_link`), the active-layer membership
flag (`active_layer`), the arrival time into the current reach
(`time_arrival_in_link`, written `time_arrival`), and the volume (which the
spec's data model stores per timestep since abrasion decays it). -/
structure ParcelRecord where
  element_id : Int
  location_in_link : ℚ
  active_layer : Bool
  time_arrival : ℚ
  volume : ℚ
deriving DecidableEq, Repr

/-- Modelled from the spec: a parcel — time-invariant attributes (grain size
`D`, `density`, `abrasion_rate`, provenance tag `source`, originating reach
`starting_link`), the cumulative travel distance
(`nst._distance_traveled_cumulative`), and a per-timestep history whose
entries are `none` before the parcel's birth (the null/absent marker of
`add_parcels`). -/
structure Parcel where
  D : ℚ
  density : ℚ
  abrasion_rate : ℚ
  source : String
  starting_link : Int
  dist_cum : ℚ
  history : List (Option ParcelRecord)
deriving DecidableEq, Repr

/-- Modelled from the spec: the Parcel Store — the parcel collection together
with the number of elapsed timesteps (the length every parcel's history is
kept aligned to). -/
structure ParcelStore where
  parcels : List Parcel
  num_timesteps : Nat
deriving DecidableEq, Repr

/-- A parcel store is well-formed when every history has exactly one entry per
elapsed timestep (spec section 3, first invariant). -/
def ParcelStore.WF (s : ParcelStore) : Prop :=
  ∀ p ∈ s.parcels, p.history.length = s.num_timesteps

/-- Rewrite only the last element of a list, if any. -/
def updateLast (f : α → α) (l : List α) : List α :=
  match l.getLast? with
  | none => l
  | some a => l.dropLast ++ [f a]

theorem updateLast_nil (f : α → α) : updateLast f [] = [] := rfl

theorem updateLast_eq_of_getLast? (f : α → α) (l : List α) (a : α)
    (h : l.getLast? = some a) : updateLast f l = l.dropLast ++ [f a] := by
  simp [updateLast, h]

theorem getLast?_updateLast (f : α → α) (l : List α) :
    (updateLast f l).getLast? = l.getLast?.map f := by
  cases h : l.getLast? with
  | none => simp [updateLast, h]
  | some a => simp [updateLast, h]

theorem dropLast_updateLast (f : α → α) (l : List α) :
    (updateLast f l).dropLast = l.dropLast := by
  cases h : l.getLast? with
  | none => simp [updateLast, h]
  | some a => simp [updateLast, h]

theorem length_updateLast (f : α → α) (l : List α) :
    (updateLast f l).length = l.length := by
  cases h : l.getLast? with
  | none => simp [updateLast, h]
  | some a =>
    have hne : l ≠ [] := by
      intro he; subst he; simp at h
    simp [updateLast, h, List.length_dropLast]
    exact Nat.succ_pred_eq_of_pos (List.length_pos.mpr hne)

theorem getElem?_updateLast_of_lt (f : α → α) (l : List α) (t : Nat)
    (ht : t + 1 < l.length) : (updateLast f l)[t]? = l[t]? := by
  cases h : l.getLast? with
  | none => simp [updateLast, h]
  | some a =>
    have hne : l ≠ [] := by intro he; subst he; simp at h
    have hd : l.dropLast.length = l.length - 1 := List.length_dropLast l
    have htd : t < l.dropLast.length := by omega
    rw [updateLast_eq_of_getLast? f l a h, List.getElem?_append_left htd]
    conv_rhs => rw [← List.dropLast_append_getLast hne]
    rw [List.getElem?_append_left htd]

/-- The most recent history entry of a parcel (`none` when the parcel has no
history yet or was never born). -/
def lastEntry (p : Parcel) : Option ParcelRecord :=
  (p.history.getLast?).getD none

/-- Modify the most recent history entry of a parcel in place. -/
def Parcel.mapLast (p : Parcel) (g : ParcelRecord → ParcelRecord) : Parcel :=
  { p with history := updateLast (Option.map g) p.history }

theorem lastEntry_mapLast (p : Parcel) (g : ParcelRecord → ParcelRecord) :
    lastEntry (p.mapLast g) = (lastEntry p).map g := by
  unfold lastEntry Parcel.mapLast
  rw [getLast?_updateLast]
  cases h : p.history.getLast? with
  | none => simp
  | some o => cases o <;> simp

theorem lastEntry_eq_of_getLast? (p : Parcel) (o : Option ParcelRecord)
    (h : p.history.getLast? = some o) : lastEntry p = o := by
  simp [lastEntry, h]

/-- The volume recorded in the most recent history entry (0 when absent). -/
def lastVol (p : Parcel) : ℚ :=
  match lastEntry p with
  | some e => e.volume
  | none => 0

/-- The reach recorded in the most recent history entry (`BAD_INDEX` when absent). -/
def lastElementId (p : Parcel) : Int :=
  match lastEntry p with
  | some e => e.element_id
  | none => BAD_INDEX

/-- The arrival time recorded in the most recent history entry (0 when absent). -/
def lastArrival (p : Parcel) : ℚ :=
  match lastEntry p with
  | some e => e.time_arrival
  | none => 0

/-- The active-layer flag of the most recent history entry (`false` when absent). -/
def lastActive (p : Parcel) : Bool :=
  match lastEntry p with
  | some e => e.active_layer
  | none => false

/-- Whether the most recent entry places the parcel on reach `link`. -/
def onLink (link : Int) (p : Parcel) : Bool :=
  match lastEntry p with
  | some e => decide (e.element_id = link)
  | none => false

/-- The chronological sequence of recorded volumes of a parcel (skipping the
null pre-birth markers). -/
def volSeq (p : Parcel) : List ℚ :=
  p.history.filterMap (fun o => o.map ParcelRecord.volume)

/-- Volumes along a parcel's history are non-increasing in time. -/
def VolNoninc (p : Parcel) : Prop :=
  List.Chain' (fun a b => b ≤ a) (volSeq p)

/-- All volumes along a parcel's history are non-negative. -/
def VolNonneg (p : Parcel) : Prop :=
  ∀ v ∈ volSeq p, 0 ≤ v

/-- End-of-step position invariant for one parcel: the fractional position of
the most recent entry lies in [0, 1], or the containing reach is the
out-of-network sentinel. -/
def posOK (p : Parcel) : Prop :=
  ∀ e ∈ lastEntry p,
    (0 ≤ e.location_in_link ∧ e.location_in_link ≤ 1) ∨ e.element_id = OUT_OF_NETWORK

/-- Modelled from the spec: `append_timestep()` on one parcel — extend the
history by one entry, initialized by copying the previous entry. -/
def Parcel.appendStep (p : Parcel) : Parcel :=
  { p with history := p.history ++ [lastEntry p] }

/-- Modelled from the spec: `append_timestep()` — extends every parcel's
history by one entry, initialized by copying the previous entry. -/
def append_timestep (s : ParcelStore) : ParcelStore :=
  { parcels := s.parcels.map Parcel.appendStep, num_timesteps := s.num_timesteps + 1 }

/-- Modelled from the spec: `positions_at(t)` — per-parcel
(reach, fractional position, active flag) at timestep `t`, failing with
`OutOfRangeError` for `t` beyond the current history length; parcels not yet
born at `t` report the null marker. -/
def positions_at (s : ParcelStore) (t : Nat) :
    Except NSTError (List (Option (Int × ℚ × Bool))) :=
  if t < s.num_timesteps then
    .ok (s.parcels.map fun p =>
      (p.history[t]?.getD none).map fun e =>
        (e.element_id, e.location_in_link, e.active_layer))
  else .error .outOfRange

/-- Modelled from the spec: the brand-new parcel identity created by
`add_parcels` — a full attribute set (the notebook's `new_variables`), placed
on reach `link` at the most recent timestep, with history for all prior
timesteps backfilled with the null/absent marker. -/
def newParcelOf (s : ParcelStore) (link : Int) (loc arrival vol dsize dens rate : ℚ)
    (src : String) (start : Int) : Parcel :=
  { D := dsize, density := dens, abrasion_rate := rate, source := src,
    starting_link := start, dist_cum := 0,
    history := List.replicate (s.num_timesteps - 1) none ++
      [some ⟨link, loc, true, arrival, vol⟩] }

/-- Modelled from the spec: `add_parcels(specs, at_time)` / the notebook's
`parcels.add_item` — append `n` brand-new parcel identities after the existing
parcels, so indices stay aligned across parcels of different birth times. -/
def add_item (s : ParcelStore) (n : Nat) (link : Int) (loc arrival vol dsize dens rate : ℚ)
    (src : String) (start : Int) : ParcelStore :=
  { s with parcels := s.parcels ++
      List.replicate n (newParcelOf s link loc arrival vol dsize dens rate src start) }

/-- Indexed relocation helper: update the most recent entry of the parcels
whose index is listed in `ids`. -/
def relocAux (ids : List Nat) (nr : Int) (np na : ℚ) : Nat → List Parcel → List Parcel
  | _, [] => []
  | j, p :: ps =>
      (if j ∈ ids then
        p.mapLast fun r => { r with element_id := nr, location_in_link := np, time_arrival := na }
      else p) :: relocAux ids nr np na (j + 1) ps

/-- Modelled from the spec: `relocate(parcel_ids, new_reach, new_position,
new_arrival_time)` — externally callable between steps; overwrites only the
most recent history entry of the selected parcels. -/
def relocate (s : ParcelStore) (ids : List Nat) (new_reach : Int) (new_pos new_arrival : ℚ) :
    ParcelStore :=
  { s with parcels := relocAux ids new_reach new_pos new_arrival 0 s.parcels }

/-- Embedded from notebook cell "Configuration 2" (recycling), per parcel: a
parcel whose `element_id` equals `OUT_OF_NETWORK` (the `mask_exited` mask) has
its `starting_link` set to `OUT_OF_NETWORK` (to denote it was recycled), its
`location_in_link` set to 0 and its `element_id` set to 1. -/
def recycleParcel (p : Parcel) : Parcel :=
  match lastEntry p with
  | some e =>
    if e.element_id = OUT_OF_NETWORK then
      Parcel.mapLast { p with starting_link := OUT_OF_NETWORK }
        (fun r => { r with location_in_link := 0, element_id := 1 })
    else p
  | none => p

/-- Embedded from notebook cell "Configuration 2" (recycling): before each
step, relocate every exited parcel. -/
def recycle_sediment (s : ParcelStore) : ParcelStore :=
  { s with parcels := s.parcels.map recycleParcel }

/-- Embedded from notebook cell "Configuration 3" (recycle only bed sediment),
per parcel: the relocation mask is `mask_exited & mask_initial_bed`, i.e.
`element_id` equals `OUT_OF_NETWORK` and `source` equals "initial_bed_sed";
a matching parcel gets `starting_link = -2`, `location_in_link = 0` and
`element_id = 1`, every other parcel is untouched. -/
def recycleOnlyBedParcel (p : Parcel) : Parcel :=
  match lastEntry p with
  | some e =>
    if e.element_id = OUT_OF_NETWORK ∧ p.source = "initial_bed_sed" then
      Parcel.mapLast { p with starting_link := -2 }
        (fun r => { r with location_in_link := 0, element_id := 1 })
    else p
  | none => p

/-- Embedded from notebook cell "Configuration 3" (recycle only bed sediment):
before each step, relocate only the exited initial-bed parcels. -/
def recycle_only_bed_sediment (s : ParcelStore) : ParcelStore :=
  { s with parcels := s.parcels.map recycleOnlyBedParcel }

/-- Modelled from the spec: a reach (network edge) with its static geometry —
`reach_length`, `channel_width`, `channel_slope` and `flow_depth`, the
at-link fields the flume notebook assigns on the grid. -/
structure Reach where
  reach_length : ℚ
  channel_width : ℚ
  channel_slope : ℚ
  flow_depth : ℚ
deriving DecidableEq, Repr

/-- Modelled from the spec: the immutable Network Topology — the list of
reaches and the downstream routing target of each reach index, which is a
valid reach index or the `OUT_OF_NETWORK` sentinel for outlets. -/
structure Network where
  reaches : List Reach
  downstream : Nat → Int

/-- Modelled from the spec: the engine's numerical configuration — fluid
density and gravity for the depth-slope shear stress, the critical Shields
number entering the grain-size- and density-dependent critical threshold, the
fixed active-layer thickness (the notebooks' `active_layer_method =
"Constant10cm"`), and the maximum cascade-hop count bounding downstream
advance within one step. -/
structure EngineParams where
  rho : ℚ
  g : ℚ
  tau_c_star : ℚ
  active_layer_thickness : ℚ
  max_hops : Nat

/-- Modelled from the spec: reach hydraulic shear stress from the depth-slope
product. -/
def tauAt (params : EngineParams) (rch : Reach) : ℚ :=
  params.rho * params.g * rch.flow_depth * rch.channel_slope

/-- Modelled from the spec: a negative computed flow depth or shear stress is
a fatal configuration error (`InvalidHydraulicStateError`). -/
def checkHydraulics (net : Network) (params : EngineParams) : Except NSTError Unit :=
  if net.reaches.all (fun r => decide (0 ≤ r.flow_depth) && decide (0 ≤ tauAt params r)) then
    .ok ()
  else .error .invalidHydraulicState

/-- Embedded from notebook cell `active_layer_volume = nst._active_layer_thickness
* grid.at_link['channel_width'] * link_len`: the active-layer capacity of a
reach is thickness times width times length. -/
def capacityOf (params : EngineParams) (rch : Reach) : ℚ :=
  params.active_layer_thickness * rch.channel_width * rch.reach_length

/-- Modelled from the spec: the grain-size- and density-dependent critical
shear-stress threshold of a parcel. -/
def criticalTau (params : EngineParams) (p : Parcel) : ℚ :=
  params.tau_c_star * (p.density - params.rho) * params.g * p.D

/-- Modelled from the spec: abrasion — reduce parcel volume by a rate
proportional to distance traveled and the parcel's abrasion-rate attribute;
the volume floor is zero. -/
def abrade (volume rate dist : ℚ) : ℚ :=
  max 0 (volume - rate * dist * volume)

/-- Modelled from the spec: the within-step advance of a mobile parcel — move
`dist` downstream from fractional position `pos` on reach `link`; if the
advance exceeds the remaining fraction of the current reach, carry the
remainder into the downstream reach(es), cascading until the remaining
distance is exhausted or the `OUT_OF_NETWORK` sentinel is reached; the
cascade is bounded by a maximum hop count (`TopologyDegenerateError` when
exceeded) and a downstream reference outside the topology is an
`InvalidReachError`.  Returns the final reach, the final fractional position
and the number of reach-to-reach hops taken. -/
def advanceCascade (net : Network) : Nat → Nat → ℚ → ℚ → Except NSTError (Int × ℚ × Nat)
  | 0, _, _, _ => .error .topologyDegenerate
  | fuel + 1, link, pos, dist =>
    match net.reaches[link]? with
    | none => .error .invalidReach
    | some rch =>
      let L := rch.reach_length
      if pos * L + dist ≤ L then
        .ok (Int.ofNat link, (if L = 0 then 0 else (pos * L + dist) / L), 0)
      else if net.downstream link = OUT_OF_NETWORK then
        .ok (OUT_OF_NETWORK, 1, 0)
      else if net.downstream link < 0 then .error .invalidReach
      else
        match advanceCascade net fuel (net.downstream link).toNat 0 (dist - (L - pos * L)) with
        | .error e => .error e
        | .ok (dst, loc, hops) => .ok (dst, loc, hops + 1)

/-- Map a fallible function over a list, failing on the first error. -/
def mapExcept (f : α → Except ε β) : List α → Except ε (List β)
  | [] => .ok []
  | a :: as =>
    match f a, mapExcept f as with
    | .ok b, .ok bs => .ok (b :: bs)
    | .error e, _ => .error e
    | .ok _, .error e => .error e

/-- Indexed sum of per-parcel contributions over the store's parcel list. -/
def isum (f : Nat → Parcel → ℚ) : Nat → List Parcel → ℚ
  | _, [] => 0
  | j, p :: ps => f j p + isum f (j + 1) ps

/-- First-in-last-out ordering: whether the parcel with arrival time `tj` and
index `j` sits at or above the parcel with arrival time `ti` and index `i` in
the bed stack (more recently arrived parcels sit nearest the surface; ties are
broken by parcel index). -/
def filoAtOrAbove (tj : ℚ) (j : Nat) (ti : ℚ) (i : Nat) : Bool :=
  decide (ti < tj) || (decide (tj = ti) && decide (j ≤ i))

/-- Modelled from the spec: the cumulative volume, counted from the bed
surface downward, of the parcels on reach `link` at or above the stack slot
of the parcel with arrival time `ti` and index `i` (inclusive). -/
def cumVolAbove (ps : List Parcel) (link : Int) (ti : ℚ) (i : Nat) : ℚ :=
  isum (fun j p => if onLink link p && filoAtOrAbove (lastArrival p) j ti i then lastVol p else 0)
    0 ps

/-- Modelled from the spec: active-layer membership of the parcel at index `i`
— a parcel is in the active layer exactly when the cumulative volume from the
top of its reach's stack down to and including it fits within the reach's
active-layer capacity (fixed-thickness policy); parcels off the network are
not active. -/
def flagParcel (net : Network) (params : EngineParams) (all : List Parcel) (i : Nat)
    (p : Parcel) : Parcel :=
  match lastEntry p with
  | none => p
  | some e =>
    if e.element_id < 0 then p.mapLast fun r => { r with active_layer := false }
    else
      match net.reaches[e.element_id.toNat]? with
      | none => p.mapLast fun r => { r with active_layer := false }
      | some rch =>
        p.mapLast fun r =>
          { r with active_layer :=
              decide (cumVolAbove all e.element_id e.time_arrival i ≤ capacityOf params rch) }

/-- Index-carrying traversal applying `flagParcel` to every parcel. -/
def setFlagsAux (net : Network) (params : EngineParams) (all : List Parcel) :
    Nat → List Parcel → List Parcel
  | _, [] => []
  | j, p :: ps => flagParcel net params all j p :: setFlagsAux net params all (j + 1) ps

/-- Modelled from the spec: recompute active-layer membership for every
parcel from the current positions (spec 4.3 and the end-of-step promotion /
demotion of the section 3 active-layer invariant). -/
def setActiveFlags (net : Network) (params : EngineParams) (s : ParcelStore) : ParcelStore :=
  { s with parcels := setFlagsAux net params s.parcels 0 s.parcels }

/-- Modelled from the spec: the end-of-advance update of a mobile parcel that
started the step at entry `e` — overwrite the most recent entry with the new
reach and fractional position, abrade the volume over the travelled distance,
refresh the arrival time when the reach changed, and add the distance to the
cumulative travel distance. -/
def moveParcel (p : Parcel) (e : ParcelRecord) (newlink : Int) (newloc dist tnow : ℚ) : Parcel :=
  { p.mapLast (fun r =>
      { r with element_id := newlink,
               location_in_link := newloc,
               volume := abrade r.volume p.abrasion_rate dist,
               time_arrival := if newlink = e.element_id then r.time_arrival else tnow })
    with dist_cum := p.dist_cum + dist }

/-- Modelled from the spec: the per-parcel work of one step — an
out-of-network parcel is excluded from transport; an in-network parcel on an
invalid reach is an `InvalidReachError`; a parcel outside the active layer or
with shear-stress ratio `tautaur` at most 1 is immobile; a mobile parcel
travels `pol D tau tau_critical * dt` metres, advances through the cascade,
records the cumulative travel distance, suffers abrasion over the distance,
and takes the current time as arrival time if it changed reach. -/
def stepParcel (net : Network) (pol : ℚ → ℚ → ℚ → ℚ) (params : EngineParams) (dt tnow : ℚ)
    (p : Parcel) : Except NSTError Parcel :=
  match lastEntry p with
  | none => .ok p
  | some e =>
    if e.element_id = OUT_OF_NETWORK then .ok p
    else if e.element_id < 0 then .error .invalidReach
    else
      match net.reaches[e.element_id.toNat]? with
      | none => .error .invalidReach
      | some rch =>
        let tau := tauAt params rch
        let tauc := criticalTau params p
        if e.active_layer = false then .ok p
        else if tau / tauc ≤ 1 then .ok p
        else
          let dist := pol p.D tau tauc * dt
          match advanceCascade net params.max_hops e.element_id.toNat e.location_in_link dist with
          | .error err => .error err
          | .ok (newlink, newloc, _) => .ok (moveParcel p e newlink newloc dist tnow)

/-- Modelled from the spec: `run_one_step(dt)` — validate hydraulics, extend
every history by one entry, recompute active-layer membership, advance every
parcel (mobility, cascade, abrasion, travel distance), and re-normalize the
active-layer flags at the end of the step.  Any fatal error aborts the step
with no partial commit. -/
def run_one_step (net : Network) (pol : ℚ → ℚ → ℚ → ℚ) (params : EngineParams) (dt tnow : ℚ)
    (s : ParcelStore) : Except NSTError ParcelStore :=
  match checkHydraulics net params with
  | .error e => .error e
  | .ok _ =>
    let s1 := setActiveFlags net params (append_timestep s)
    match mapExcept (stepParcel net pol params dt tnow) s1.parcels with
    | .error e => .error e
    | .ok ps => .ok (setActiveFlags net params { s1 with parcels := ps })

/-- Modelled from the spec: run `n` synchronous timesteps, advancing the model
clock by `dt` each step (the notebooks' baseline loop). -/
def runSteps (net : Network) (pol : ℚ → ℚ → ℚ → ℚ) (params : EngineParams) (dt : ℚ) :
    Nat → ℚ → ParcelStore → Except NSTError ParcelStore
  | 0, _, s => .ok s
  | n + 1, tnow, s =>
    match run_one_step net pol params dt tnow s with
    | .error e => .error e
    | .ok s' => runSteps net pol params dt n (tnow + dt) s'

/-- Embedded from notebook "Configuration 2": the recycling loop — before each
step, relocate every exited parcel via `recycle_sediment`, then run one step. -/
def runRecycling (net : Network) (pol : ℚ → ℚ → ℚ → ℚ) (params : EngineParams) (dt : ℚ) :
    Nat → ℚ → ParcelStore → Except NSTError ParcelStore
  | 0, _, s => .ok s
  | n + 1, tnow, s =>
    match run_one_step net pol params dt tnow (recycle_sediment s) with
    | .error e => .error e
    | .ok s' => runRecycling net pol params dt n (tnow + dt) s'

/-- Embedded from notebook "Configuration 3": the provenance-filtered
recycling loop — before each step, relocate only the exited initial-bed
parcels via `recycle_only_bed_sediment`, then run one step. -/
def runFilteredRecycling (net : Network) (pol : ℚ → ℚ → ℚ → ℚ) (params : EngineParams)
    (dt : ℚ) : Nat → ℚ → ParcelStore → Except NSTError ParcelStore
  | 0, _, s => .ok s
  | n + 1, tnow, s =>
    match run_one_step net pol params dt tnow (recycle_only_bed_sediment s) with
    | .error e => .error e
    | .ok s' => runFilteredRecycling net pol params dt n (tnow + dt) s'

/-- The step as seen by a caller that keeps its previous store on failure. -/
def tryStep (net : Network) (pol : ℚ → ℚ → ℚ → ℚ) (params : EngineParams) (dt tnow : ℚ)
    (s : ParcelStore) : ParcelStore :=
  match run_one_step net pol params dt tnow s with
  | .ok s' => s'
  | .error _ => s

/-- Total volume recorded at the most recent timestep, over all parcels. -/
def totalLastVolume (s : ParcelStore) : ℚ :=
  (s.parcels.map lastVol).sum

/-- Total most-recent volume of the parcels currently in the network. -/
def inNetVolume (s : ParcelStore) : ℚ :=
  ((s.parcels.filter fun p =>
      match lastEntry p with
      | some e => decide (e.element_id ≠ OUT_OF_NETWORK)
      | none => false).map lastVol).sum

/-- Total most-recent volume of the parcels that have exited the network. -/
def exitedVolume (s : ParcelStore) : ℚ :=
  ((s.parcels.filter fun p =>
      match lastEntry p with
      | some e => decide (e.element_id = OUT_OF_NETWORK)
      | none => false).map lastVol).sum

/-- Summed most-recent volume of the parcels flagged active on reach `link`. -/
def activeVolumeOn (s : ParcelStore) (link : Int) : ℚ :=
  isum (fun _ p => if onLink link p && lastActive p then lastVol p else 0) 0 s.parcels

theorem mapExcept_cons_ok (f : α → Except ε β) (a : α) (as : List α) (l' : List β)
    (h : mapExcept f (a :: as) = .ok l') :
    ∃ b bs, f a = .ok b ∧ mapExcept f as = .ok bs ∧ l' = b :: bs := by
  unfold mapExcept at h
  cases hf : f a with
  | error e => rw [hf] at h; simp at h
  | ok b =>
    cases hm : mapExcept f as with
    | error e => rw [hf, hm] at h; simp at h
    | ok bs =>
      rw [hf, hm] at h
      simp only [Except.ok.injEq] at h
      exact ⟨b, bs, rfl, rfl, h.symm⟩

theorem mapExcept_length (f : α → Except ε β) (l : List α) (l' : List β)
    (h : mapExcept f l = .ok l') : l'.length = l.length := by
  induction l generalizing l' with
  | nil =>
    unfold mapExcept at h
    simp only [Except.ok.injEq] at h
    rw [← h]
    rfl
  | cons a as ih =>
    obtain ⟨b, bs, _, hm, hl⟩ := mapExcept_cons_ok f a as l' h
    subst hl
    simp [ih bs hm]

theorem mapExcept_getElem? (f : α → Except ε β) (l : List α) (l' : List β)
    (h : mapExcept f l = .ok l') :
    ∀ (j : Nat) (a : α), l[j]? = some a → ∃ b, l'[j]? = some b ∧ f a = .ok b := by
  induction l generalizing l' with
  | nil => intro j a ha; exact absurd ha (by simp)
  | cons x as ih =>
    obtain ⟨b, bs, hf, hm, hl⟩ := mapExcept_cons_ok f x as l' h
    subst hl
    intro j a ha
    cases j with
    | zero =>
      simp only [List.getElem?_cons_zero, Option.some.injEq] at ha
      exact ⟨b, by simp, by rw [← ha]; exact hf⟩
    | succ k =>
      simp only [List.getElem?_cons_succ] at ha ⊢
      exact ih bs hm k a ha

theorem setFlagsAux_length (net : Network) (params : EngineParams) (all : List Parcel)
    (j : Nat) (l : List Parcel) : (setFlagsAux net params all j l).length = l.length := by
  induction l generalizing j with
  | nil => rfl
  | cons p ps ih => simp [setFlagsAux, ih]

theorem setFlagsAux_getElem? (net : Network) (params : EngineParams) (all : List Parcel)
    (j k : Nat) (l : List Parcel) :
    (setFlagsAux net params all j l)[k]? = (l[k]?).map (flagParcel net params all (j + k)) := by
  induction l generalizing j k with
  | nil => simp [setFlagsAux]
  | cons p ps ih =>
    cases k with
    | zero => simp [setFlagsAux]
    | succ m =>
      have harith : j + 1 + m = j + (m + 1) := by omega
      simp only [setFlagsAux, List.getElem?_cons_succ, ih (j + 1) m, harith]

theorem run_one_step_ok (net : Network) (pol : ℚ → ℚ → ℚ → ℚ) (params : EngineParams)
    (dt tnow : ℚ) (s s' : ParcelStore)
    (h : run_one_step net pol params dt tnow s = .ok s') :
    ∃ ps, mapExcept (stepParcel net pol params dt tnow)
        (setActiveFlags net params (append_timestep s)).parcels = .ok ps ∧
      s' = setActiveFlags net params
        { parcels := ps, num_timesteps := s.num_timesteps + 1 } := by
  unfold run_one_step at h
  cases hc : checkHydraulics net params with
  | error e => rw [hc] at h; simp at h
  | ok u =>
    cases u
    rw [hc] at h
    cases hm : mapExcept (stepParcel net pol params dt tnow)
        (setActiveFlags net params (append_timestep s)).parcels with
    | error e => simp only [hm] at h; simp at h
    | ok ps =>
      refine ⟨ps, ?_, ?_⟩
      · exact hm ▸ rfl
      · simp only [hm] at h
        simp only [Except.ok.injEq] at h
        rw [← h]
        rfl

theorem append_timestep_parcels (s : ParcelStore) (j : Nat) :
    (append_timestep s).parcels[j]? = (s.parcels[j]?).map Parcel.appendStep := by
  simp [append_timestep]

theorem setActiveFlags_parcels (net : Network) (params : EngineParams) (s : ParcelStore)
    (j : Nat) :
    (setActiveFlags net params s).parcels[j]? =
      (s.parcels[j]?).map (flagParcel net params s.parcels j) := by
  simpa using setFlagsAux_getElem? net params s.parcels 0 j s.parcels

theorem history_mapLast_decomp (p : Parcel) (g : ParcelRecord → ParcelRecord)
    (o : Option ParcelRecord) (h : p.history.getLast? = some o) :
    p.history = p.history.dropLast ++ [o] ∧
    (p.mapLast g).history = p.history.dropLast ++ [o.map g] := by
  have hne : p.history ≠ [] := by intro he; rw [he] at h; simp at h
  constructor
  · conv_lhs => rw [← List.dropLast_append_getLast hne]
    have := List.getLast?_eq_getLast p.history hne
    rw [this] at h
    simp only [Option.some.injEq] at h
    rw [h]
  · show updateLast (Option.map g) p.history = _
    rw [updateLast_eq_of_getLast? _ _ o h]

theorem volSeq_mapLast (p : Parcel) (g : ParcelRecord → ParcelRecord)
    (hg : ∀ r, (g r).volume = r.volume) : volSeq (p.mapLast g) = volSeq p := by
  cases h : p.history.getLast? with
  | none =>
    show (updateLast (Option.map g) p.history).filterMap _ = _
    simp [updateLast, h, volSeq]
  | some o =>
    obtain ⟨h1, h2⟩ := history_mapLast_decomp p g o h
    unfold volSeq
    rw [h2]
    conv_rhs => rw [h1]
    rw [List.filterMap_append, List.filterMap_append]
    congr 1
    cases o with
    | none => simp
    | some r => simp [hg r]

theorem lastVol_mapLast (p : Parcel) (g : ParcelRecord → ParcelRecord)
    (hg : ∀ r, (g r).volume = r.volume) : lastVol (p.mapLast g) = lastVol p := by
  unfold lastVol
  rw [lastEntry_mapLast]
  cases lastEntry p with
  | none => rfl
  | some e => simp [hg e]

theorem lastElementId_mapLast (p : Parcel) (g : ParcelRecord → ParcelRecord)
    (hg : ∀ r, (g r).element_id = r.element_id) :
    lastElementId (p.mapLast g) = lastElementId p := by
  unfold lastElementId
  rw [lastEntry_mapLast]
  cases lastEntry p with
  | none => rfl
  | some e => simp [hg e]

theorem lastArrival_mapLast (p : Parcel) (g : ParcelRecord → ParcelRecord)
    (hg : ∀ r, (g r).time_arrival = r.time_arrival) :
    lastArrival (p.mapLast g) = lastArrival p := by
  unfold lastArrival
  rw [lastEntry_mapLast]
  cases lastEntry p with
  | none => rfl
  | some e => simp [hg e]

theorem onLink_mapLast (p : Parcel) (g : ParcelRecord → ParcelRecord)
    (hg : ∀ r, (g r).element_id = r.element_id) (link : Int) :
    onLink link (p.mapLast g) = onLink link p := by
  unfold onLink
  rw [lastEntry_mapLast]
  cases lastEntry p with
  | none => rfl
  | some e => simp [hg e]

theorem posOK_congr (p q : Parcel) (h : lastEntry p = lastEntry q) :
    posOK p ↔ posOK q := by
  unfold posOK
  rw [h]

theorem posOK_mapLast (p : Parcel) (g : ParcelRecord → ParcelRecord)
    (hg : ∀ r, (g r).location_in_link = r.location_in_link ∧ (g r).element_id = r.element_id) :
    posOK (p.mapLast g) ↔ posOK p := by
  unfold posOK
  rw [lastEntry_mapLast]
  cases lastEntry p with
  | none => simp
  | some e => simp [(hg e).1, (hg e).2]

theorem lastEntry_appendStep (p : Parcel) : lastEntry p.appendStep = lastEntry p := by
  show ((p.history ++ [lastEntry p]).getLast?).getD none = _
  rw [List.getLast?_concat]
  rfl

theorem volSeq_appendStep (p : Parcel) :
    volSeq p.appendStep = volSeq p ++ ((lastEntry p).map ParcelRecord.volume).toList := by
  show (p.history ++ [lastEntry p]).filterMap _ = _
  rw [List.filterMap_append]
  congr 1

/-- The time-invariant attributes of a parcel, bundled. -/
def staticOf (p : Parcel) : ℚ × ℚ × ℚ × String × Int :=
  (p.D, p.density, p.abrasion_rate, p.source, p.starting_link)

theorem staticOf_mapLast (p : Parcel) (g : ParcelRecord → ParcelRecord) :
    staticOf (p.mapLast g) = staticOf p := rfl

theorem staticOf_appendStep (p : Parcel) : staticOf p.appendStep = staticOf p := rfl

theorem staticOf_moveParcel (p : Parcel) (e : ParcelRecord) (newlink : Int)
    (newloc dist tnow : ℚ) : staticOf (moveParcel p e newlink newloc dist tnow) = staticOf p := rfl

theorem flagParcel_shape (net : Network) (params : EngineParams) (all : List Parcel)
    (i : Nat) (p : Parcel) :
    flagParcel net params all i p = p ∨
    ∃ b : Bool, flagParcel net params all i p =
      p.mapLast fun r => { r with active_layer := b } := by
  unfold flagParcel
  cases lastEntry p with
  | none => exact Or.inl rfl
  | some e =>
    right
    by_cases h1 : e.element_id < 0
    · exact ⟨false, by simp [h1]⟩
    · cases hr : net.reaches[e.element_id.toNat]? with
      | none => exact ⟨false, by simp [h1, hr]⟩
      | some rch =>
        exact ⟨decide (cumVolAbove all e.element_id e.time_arrival i ≤ capacityOf params rch),
          by simp [h1, hr]⟩

theorem mem_of_getElem?_eq {l : List α} {n : Nat} {a : α} (h : l[n]? = some a) : a ∈ l := by
  induction l generalizing n with
  | nil => simp at h
  | cons x xs ih =>
    cases n with
    | zero =>
      simp only [List.getElem?_cons_zero, Option.some.injEq] at h
      rw [← h]
      exact List.mem_cons_self x xs
    | succ m =>
      simp only [List.getElem?_cons_succ] at h
      exact List.mem_cons_of_mem _ (ih h)

theorem abrade_nonneg (v r d : ℚ) : 0 ≤ abrade v r d := le_max_left 0 _

theorem abrade_le (v r d : ℚ) (hv : 0 ≤ v) (hr : 0 ≤ r) (hd : 0 ≤ d) :
    abrade v r d ≤ v := by
  unfold abrade
  have : 0 ≤ r * d * v := mul_nonneg (mul_nonneg hr hd) hv
  exact max_le hv (by linarith)

theorem abrade_zero_rate (v d : ℚ) (hv : 0 ≤ v) : abrade v 0 d = v := by
  unfold abrade
  simp [max_eq_right hv]

theorem stepParcel_ok_cases (net : Network) (pol : ℚ → ℚ → ℚ → ℚ) (params : EngineParams)
    (dt tnow : ℚ) (p p' : Parcel) (h : stepParcel net pol params dt tnow p = .ok p') :
    p' = p ∨
    ∃ e rch newlink newloc hops,
      lastEntry p = some e ∧ e.element_id ≠ OUT_OF_NETWORK ∧ ¬e.element_id < 0 ∧
      net.reaches[e.element_id.toNat]? = some rch ∧
      advanceCascade net params.max_hops e.element_id.toNat e.location_in_link
        (pol p.D (tauAt params rch) (criticalTau params p) * dt) = .ok (newlink, newloc, hops) ∧
      p' = moveParcel p e newlink newloc
        (pol p.D (tauAt params rch) (criticalTau params p) * dt) tnow := by
  unfold stepParcel at h
  cases he : lastEntry p with
  | none =>
    rw [he] at h
    simp only [Except.ok.injEq] at h
    exact Or.inl h.symm
  | some e =>
    rw [he] at h
    simp only at h
    by_cases h1 : e.element_id = OUT_OF_NETWORK
    · rw [if_pos h1] at h
      simp only [Except.ok.injEq] at h
      exact Or.inl h.symm
    · rw [if_neg h1] at h
      by_cases h2 : e.element_id < 0
      · rw [if_pos h2] at h; simp at h
      · rw [if_neg h2] at h
        cases hr : net.reaches[e.element_id.toNat]? with
        | none => rw [hr] at h; simp at h
        | some rch =>
          rw [hr] at h
          simp only at h
          by_cases h3 : e.active_layer = false
          · rw [if_pos h3] at h
            simp only [Except.ok.injEq] at h
            exact Or.inl h.symm
          · rw [if_neg h3] at h
            by_cases h4 : tauAt params rch / criticalTau params p ≤ 1
            · rw [if_pos h4] at h
              simp only [Except.ok.injEq] at h
              exact Or.inl h.symm
            · rw [if_neg h4] at h
              cases hadv : advanceCascade net params.max_hops e.element_id.toNat
                  e.location_in_link
                  (pol p.D (tauAt params rch) (criticalTau params p) * dt) with
              | error err => rw [hadv] at h; simp at h
              | ok res =>
                obtain ⟨newlink, newloc, hops⟩ := res
                rw [hadv] at h
                simp only [Except.ok.injEq] at h
                exact Or.inr ⟨e, rch, newlink, newloc, hops, rfl, h1, h2, hr, hadv, h.symm⟩

theorem advanceCascade_ok_pos (net : Network)
    (hlen : ∀ r ∈ net.reaches, 0 ≤ r.reach_length) :
    ∀ (fuel link : Nat) (pos dist : ℚ) (dst : Int) (loc : ℚ) (hops : Nat),
      0 ≤ pos → pos ≤ 1 → 0 ≤ dist →
      advanceCascade net fuel link pos dist = .ok (dst, loc, hops) →
      (0 ≤ loc ∧ loc ≤ 1) ∨ dst = OUT_OF_NETWORK := by
  intro fuel
  induction fuel with
  | zero => intro link pos dist dst loc hops _ _ _ h; simp [advanceCascade] at h
  | succ f ih =>
    intro link pos dist dst loc hops hpos0 hpos1 hdist h
    unfold advanceCascade at h
    cases hr : net.reaches[link]? with
    | none => rw [hr] at h; simp at h
    | some rch =>
      rw [hr] at h
      simp only at h
      have hL : 0 ≤ rch.reach_length := hlen rch (mem_of_getElem?_eq hr)
      by_cases hstay : pos * rch.reach_length + dist ≤ rch.reach_length
      · rw [if_pos hstay] at h
        simp only [Except.ok.injEq, Prod.mk.injEq] at h
        obtain ⟨hdst, hloc, hhops⟩ := h
        left
        rw [← hloc]
        by_cases hL0 : rch.reach_length = 0
        · simp [hL0]
        · have hLpos : 0 < rch.reach_length := lt_of_le_of_ne hL (Ne.symm hL0)
          rw [if_neg hL0]
          constructor
          · exact div_nonneg (by positivity) (le_of_lt hLpos)
          · rw [div_le_one hLpos]
            exact hstay
      · rw [if_neg hstay] at h
        by_cases hout : net.downstream link = OUT_OF_NETWORK
        · rw [if_pos hout] at h
          simp only [Except.ok.injEq, Prod.mk.injEq] at h
          exact Or.inr h.1.symm
        · rw [if_neg hout] at h
          by_cases hneg : net.downstream link < 0
          · rw [if_pos hneg] at h; simp at h
          · rw [if_neg hneg] at h
            cases hrec : advanceCascade net f (net.downstream link).toNat 0
                (dist - (rch.reach_length - pos * rch.reach_length)) with
            | error e => rw [hrec] at h; simp at h
            | ok res =>
              obtain ⟨dst', loc', hops'⟩ := res
              rw [hrec] at h
              simp only [Except.ok.injEq, Prod.mk.injEq] at h
              obtain ⟨hdst, hloc, _⟩ := h
              have hdist' : 0 ≤ dist - (rch.reach_length - pos * rch.reach_length) := by
                push_neg at hstay
                linarith
              have := ih (net.downstream link).toNat 0
                (dist - (rch.reach_length - pos * rch.reach_length)) dst' loc' hops'
                le_rfl zero_le_one hdist' hrec
              rw [← hdst, ← hloc]
              exact this

theorem advanceCascade_hops_lt (net : Network) :
    ∀ (fuel link : Nat) (pos dist : ℚ) (dst : Int) (loc : ℚ) (hops : Nat),
      advanceCascade net fuel link pos dist = .ok (dst, loc, hops) → hops < fuel := by
  intro fuel
  induction fuel with
  | zero => intro link pos dist dst loc hops h; simp [advanceCascade] at h
  | succ f ih =>
    intro link pos dist dst loc hops h
    unfold advanceCascade at h
    cases hr : net.reaches[link]? with
    | none => rw [hr] at h; simp at h
    | some rch =>
      rw [hr] at h
      simp only at h
      by_cases hstay : pos * rch.reach_length + dist ≤ rch.reach_length
      · rw [if_pos hstay] at h
        simp only [Except.ok.injEq, Prod.mk.injEq] at h
        omega
      · rw [if_neg hstay] at h
        by_cases hout : net.downstream link = OUT_OF_NETWORK
        · rw [if_pos hout] at h
          simp only [Except.ok.injEq, Prod.mk.injEq] at h
          omega
        · rw [if_neg hout] at h
          by_cases hneg : net.downstream link < 0
          · rw [if_pos hneg] at h; simp at h
          · rw [if_neg hneg] at h
            cases hrec : advanceCascade net f (net.downstream link).toNat 0
                (dist - (rch.reach_length - pos * rch.reach_length)) with
            | error e => rw [hrec] at h; simp at h
            | ok res =>
              obtain ⟨dst', loc', hops'⟩ := res
              rw [hrec] at h
              simp only [Except.ok.injEq, Prod.mk.injEq] at h
              have := ih _ _ _ dst' loc' hops' hrec
              omega

theorem getLast?_history_of_lastEntry (p : Parcel) (e : ParcelRecord)
    (h : lastEntry p = some e) : p.history.getLast? = some (some e) := by
  unfold lastEntry at h
  cases hg : p.history.getLast? with
  | none => rw [hg] at h; simp at h
  | some o => rw [hg] at h; simp only [Option.getD_some] at h; rw [h]

theorem history_decomp (p : Parcel) (e : ParcelRecord) (h : lastEntry p = some e) :
    p.history = p.history.dropLast ++ [some e] := by
  have hg := getLast?_history_of_lastEntry p e h
  have hne : p.history ≠ [] := by intro he; rw [he] at hg; simp at hg
  conv_lhs => rw [← List.dropLast_append_getLast hne]
  have := List.getLast?_eq_getLast p.history hne
  rw [this] at hg
  simp only [Option.some.injEq] at hg
  rw [hg]

theorem volSeq_decomp (p : Parcel) (e : ParcelRecord) (h : lastEntry p = some e) :
    volSeq p = (p.history.dropLast.filterMap (fun o => o.map ParcelRecord.volume))
      ++ [e.volume] := by
  unfold volSeq
  conv_lhs => rw [history_decomp p e h]
  rw [List.filterMap_append]
  rfl

theorem volSeq_getLast? (p : Parcel) (e : ParcelRecord) (h : lastEntry p = some e) :
    (volSeq p).getLast? = some e.volume := by
  rw [volSeq_decomp p e h, List.getLast?_concat]

theorem volSeq_mapLast_decomp (p : Parcel) (e : ParcelRecord) (h : lastEntry p = some e)
    (g : ParcelRecord → ParcelRecord) :
    volSeq (p.mapLast g) =
      (p.history.dropLast.filterMap (fun o => o.map ParcelRecord.volume))
      ++ [(g e).volume] := by
  have hg := getLast?_history_of_lastEntry p e h
  obtain ⟨_, h2⟩ := history_mapLast_decomp p g (some e) hg
  unfold volSeq
  show (p.mapLast g).history.filterMap _ = _
  rw [h2, List.filterMap_append]
  rfl

theorem chain_ge_append (l : List ℚ) (x : ℚ)
    (h : List.Chain' (fun a b => b ≤ a) l) (hlast : ∀ a ∈ l.getLast?, x ≤ a) :
    List.Chain' (fun a b => b ≤ a) (l ++ [x]) := by
  rw [List.chain'_append]
  exact ⟨h, List.chain'_singleton x, fun a ha y hy => by
    simp only [List.head?_cons, Option.mem_def, Option.some.injEq] at hy
    rw [← hy]
    exact hlast a ha⟩

theorem volOK_appendStep (p : Parcel) (h1 : VolNoninc p) (h2 : VolNonneg p) :
    VolNoninc p.appendStep ∧ VolNonneg p.appendStep := by
  cases he : lastEntry p with
  | none =>
    have : volSeq p.appendStep = volSeq p := by
      rw [volSeq_appendStep, he]
      simp
    unfold VolNoninc at h1
    unfold VolNonneg at h2
    unfold VolNoninc VolNonneg
    rw [this]
    exact ⟨h1, h2⟩
  | some e =>
    have hv : volSeq p.appendStep = volSeq p ++ [e.volume] := by
      rw [volSeq_appendStep, he]
      rfl
    constructor
    · unfold VolNoninc at h1 ⊢
      rw [hv]
      refine chain_ge_append _ _ h1 ?_
      intro a ha
      rw [volSeq_getLast? p e he] at ha
      simp only [Option.mem_def, Option.some.injEq] at ha
      rw [← ha]
    · unfold VolNonneg at h2 ⊢
      rw [hv]
      intro v hv2
      rcases List.mem_append.mp hv2 with hmem | hmem
      · exact h2 v hmem
      · have hev : e.volume ∈ volSeq p := by
          rw [volSeq_decomp p e he]
          simp
        simp only [List.mem_singleton] at hmem
        rw [hmem]
        exact h2 _ hev

theorem volOK_mapLast (p : Parcel) (g : ParcelRecord → ParcelRecord)
    (hg : ∀ r, (g r).volume = r.volume) (h1 : VolNoninc p) (h2 : VolNonneg p) :
    VolNoninc (p.mapLast g) ∧ VolNonneg (p.mapLast g) := by
  unfold VolNoninc at h1
  unfold VolNonneg at h2
  unfold VolNoninc VolNonneg
  rw [volSeq_mapLast p g hg]
  exact ⟨h1, h2⟩

theorem volOK_moveParcel (p : Parcel) (e : ParcelRecord) (newlink : Int)
    (newloc dist tnow : ℚ) (he : lastEntry p = some e)
    (h1 : VolNoninc p) (h2 : VolNonneg p) (hr : 0 ≤ p.abrasion_rate) (hd : 0 ≤ dist) :
    VolNoninc (moveParcel p e newlink newloc dist tnow) ∧
    VolNonneg (moveParcel p e newlink newloc dist tnow) := by
  have hev : e.volume ∈ volSeq p := by
    rw [volSeq_decomp p e he]
    simp
  have hev0 : 0 ≤ e.volume := h2 _ hev
  have hab : abrade e.volume p.abrasion_rate dist ≤ e.volume :=
    abrade_le _ _ _ hev0 hr hd
  have hvol : volSeq (moveParcel p e newlink newloc dist tnow) =
      (p.history.dropLast.filterMap (fun o => o.map ParcelRecord.volume))
      ++ [abrade e.volume p.abrasion_rate dist] := by
    show volSeq ((p.mapLast _)) = _
    rw [volSeq_mapLast_decomp p e he]
  have hold := volSeq_decomp p e he
  constructor
  · unfold VolNoninc at h1 ⊢
    rw [hvol]
    rw [hold, List.chain'_append] at h1
    obtain ⟨hd1, _, hd3⟩ := h1
    refine chain_ge_append _ _ hd1 ?_
    intro a ha
    have := hd3 a ha e.volume (by simp)
    linarith
  · unfold VolNonneg at h2 ⊢
    rw [hvol]
    intro v hv2
    rcases List.mem_append.mp hv2 with hmem | hmem
    · refine h2 v ?_
      rw [hold]
      exact List.mem_append_left _ hmem
    · simp only [List.mem_singleton] at hmem
      rw [hmem]
      exact abrade_nonneg _ _ _

theorem flagParcel_abrasion_rate (net : Network) (params : EngineParams) (all : List Parcel)
    (i : Nat) (p : Parcel) : (flagParcel net params all i p).abrasion_rate = p.abrasion_rate := by
  rcases flagParcel_shape net params all i p with h | ⟨b, h⟩ <;> rw [h] <;> rfl

theorem flagParcel_starting_link (net : Network) (params : EngineParams) (all : List Parcel)
    (i : Nat) (p : Parcel) : (flagParcel net params all i p).starting_link = p.starting_link := by
  rcases flagParcel_shape net params all i p with h | ⟨b, h⟩ <;> rw [h] <;> rfl

theorem flagParcel_source (net : Network) (params : EngineParams) (all : List Parcel)
    (i : Nat) (p : Parcel) : (flagParcel net params all i p).source = p.source := by
  rcases flagParcel_shape net params all i p with h | ⟨b, h⟩ <;> rw [h] <;> rfl

theorem volOK_flagParcel (net : Network) (params : EngineParams) (all : List Parcel)
    (i : Nat) (p : Parcel) (h1 : VolNoninc p) (h2 : VolNonneg p) :
    VolNoninc (flagParcel net params all i p) ∧ VolNonneg (flagParcel net params all i p) := by
  rcases flagParcel_shape net params all i p with h | ⟨b, h⟩
  · rw [h]; exact ⟨h1, h2⟩
  · rw [h]
    exact volOK_mapLast p _ (fun r => rfl) h1 h2

theorem stepParcel_ok_abrasion_rate (net : Network) (pol : ℚ → ℚ → ℚ → ℚ)
    (params : EngineParams) (dt tnow : ℚ) (p p' : Parcel)
    (h : stepParcel net pol params dt tnow p = .ok p') : p'.abrasion_rate = p.abrasion_rate := by
  rcases stepParcel_ok_cases net pol params dt tnow p p' h with he | ⟨_, _, _, _, _, _, _, _, _, _, he⟩
  · rw [he]
  · rw [he]; rfl

theorem run_one_step_parcels (net : Network) (pol : ℚ → ℚ → ℚ → ℚ) (params : EngineParams)
    (dt tnow : ℚ) (s s' : ParcelStore)
    (h : run_one_step net pol params dt tnow s = .ok s') :
    ∃ ps : List Parcel, ps.length = s.parcels.length ∧
      s' = setActiveFlags net params { parcels := ps, num_timesteps := s.num_timesteps + 1 } ∧
      ∀ (j : Nat) (p : Parcel), s.parcels[j]? = some p →
        ∃ q, ps[j]? = some q ∧
          stepParcel net pol params dt tnow
            (flagParcel net params (append_timestep s).parcels j p.appendStep) = .ok q := by
  obtain ⟨ps, hm, hs'⟩ := run_one_step_ok net pol params dt tnow s s' h
  refine ⟨ps, ?_, hs', ?_⟩
  · rw [mapExcept_length _ _ _ hm]
    show (setFlagsAux net params _ 0 _).length = _
    rw [setFlagsAux_length]
    simp [append_timestep]
  · intro j p hp
    have hin : (setActiveFlags net params (append_timestep s)).parcels[j]? =
        some (flagParcel net params (append_timestep s).parcels j p.appendStep) := by
      rw [setActiveFlags_parcels, append_timestep_parcels, hp]
      rfl
    obtain ⟨q, hq, hsq⟩ := mapExcept_getElem? _ _ _ hm j _ hin
    exact ⟨q, hq, hsq⟩

theorem run_one_step_volOK (net : Network) (pol : ℚ → ℚ → ℚ → ℚ) (params : EngineParams)
    (dt tnow : ℚ) (s s' : ParcelStore)
    (hdt : 0 ≤ dt) (hpol : ∀ a b c, 0 ≤ pol a b c)
    (hrate : ∀ p ∈ s.parcels, 0 ≤ p.abrasion_rate)
    (hvol : ∀ p ∈ s.parcels, VolNoninc p ∧ VolNonneg p)
    (h : run_one_step net pol params dt tnow s = .ok s') :
    (∀ p ∈ s'.parcels, 0 ≤ p.abrasion_rate) ∧
    (∀ p ∈ s'.parcels, VolNoninc p ∧ VolNonneg p) := by
  obtain ⟨ps, hlen, hs', hstep⟩ := run_one_step_parcels net pol params dt tnow s s' h
  have key : ∀ p' ∈ s'.parcels,
      0 ≤ p'.abrasion_rate ∧ (VolNoninc p' ∧ VolNonneg p') := by
    intro p' hp'
    obtain ⟨j, hj⟩ := List.mem_iff_getElem?.mp hp'
    rw [hs'] at hj
    rw [setActiveFlags_parcels] at hj
    cases hq : (({ parcels := ps, num_timesteps := s.num_timesteps + 1 } :
        ParcelStore).parcels)[j]? with
    | none => rw [hq] at hj; simp at hj
    | some q =>
      rw [hq] at hj
      simp only [Option.map_some', Option.some.injEq] at hj
      have hjlen : j < ps.length := by
        have := List.getElem?_eq_some.mp hq
        exact this.1
      have hjs : j < s.parcels.length := by rw [← hlen]; exact hjlen
      have hp : s.parcels[j]? = some s.parcels[j] := List.getElem?_eq_getElem hjs
      obtain ⟨q2, hq2, hstepq⟩ := hstep j _ hp
      have hqq : q2 = q := by
        rw [hq2] at hq
        simp only [Option.some.injEq] at hq
        exact hq
      subst hqq
      set p := s.parcels[j] with hpdef
      have hpmem : p ∈ s.parcels := mem_of_getElem?_eq hp
      have hpv := hvol p hpmem
      have hpr := hrate p hpmem
      set a := flagParcel net params (append_timestep s).parcels j p.appendStep with hadef
      have hav : VolNoninc a ∧ VolNonneg a := by
        have h1 := volOK_appendStep p hpv.1 hpv.2
        exact volOK_flagParcel net params _ j p.appendStep h1.1 h1.2
      have har : a.abrasion_rate = p.abrasion_rate := by
        rw [hadef, flagParcel_abrasion_rate]
        rfl
      have hqv : VolNoninc q2 ∧ VolNonneg q2 := by
        rcases stepParcel_ok_cases net pol params dt tnow a q2 hstepq with
          hc | ⟨e, rch, newlink, newloc, hops, he, _, _, _, _, hc⟩
        · rw [hc]; exact hav
        · rw [hc]
          refine volOK_moveParcel a e newlink newloc _ tnow he hav.1 hav.2 ?_ ?_
          · rw [har]; exact hpr
          · exact mul_nonneg (hpol _ _ _) hdt
      have hqr : q2.abrasion_rate = p.abrasion_rate := by
        rw [stepParcel_ok_abrasion_rate net pol params dt tnow a q2 hstepq, har]
      constructor
      · rw [← hj, flagParcel_abrasion_rate, hqr]
        exact hpr
      · rw [← hj]
        exact volOK_flagParcel net params ps j q2 hqv.1 hqv.2
  exact ⟨fun p hp => (key p hp).1, fun p hp => (key p hp).2⟩

theorem runSteps_volOK (net : Network) (pol : ℚ → ℚ → ℚ → ℚ) (params : EngineParams)
    (dt : ℚ) (hdt : 0 ≤ dt) (hpol : ∀ a b c, 0 ≤ pol a b c) :
    ∀ (n : Nat) (t0 : ℚ) (s s' : ParcelStore),
      (∀ p ∈ s.parcels, 0 ≤ p.abrasion_rate) →
      (∀ p ∈ s.parcels, VolNoninc p ∧ VolNonneg p) →
      runSteps net pol params dt n t0 s = .ok s' →
      (∀ p ∈ s'.parcels, 0 ≤ p.abrasion_rate) ∧
      (∀ p ∈ s'.parcels, VolNoninc p ∧ VolNonneg p) := by
  intro n
  induction n with
  | zero =>
    intro t0 s s' h1 h2 h
    unfold runSteps at h
    simp only [Except.ok.injEq] at h
    rw [← h]
    exact ⟨h1, h2⟩
  | succ m ih =>
    intro t0 s s' h1 h2 h
    unfold runSteps at h
    cases hr : run_one_step net pol params dt t0 s with
    | error e => rw [hr] at h; simp at h
    | ok s1 =>
      rw [hr] at h
      have hk := run_one_step_volOK net pol params dt t0 s s1 hdt hpol h1 h2 hr
      exact ih (t0 + dt) s1 s' hk.1 hk.2 h

/-- Claim C1: for every parcel and every pair of consecutive timesteps across an
entire run of the transport engine, the parcel's volume at the later timestep
is at most its volume at the earlier timestep, and no recorded volume is ever
negative — abrasion only reduces volume, with a floor at zero. -/
theorem c1_volume_monotone (net : Network) (pol : ℚ → ℚ → ℚ → ℚ) (params : EngineParams)
    (dt t0 : ℚ) (n : Nat) (s s' : ParcelStore)
    (hdt : 0 ≤ dt) (hpol : ∀ a b c, 0 ≤ pol a b c)
    (hrate : ∀ p ∈ s.parcels, 0 ≤ p.abrasion_rate)
    (hvol : ∀ p ∈ s.parcels, VolNoninc p ∧ VolNonneg p)
    (h : runSteps net pol params dt n t0 s = .ok s') :
    ∀ p ∈ s'.parcels, VolNoninc p ∧ VolNonneg p :=
  (runSteps_volOK net pol params dt hdt hpol n t0 s s' hrate hvol h).2

/-- A two-reach flume used as concrete input of the witnesses: two reaches of
length 2, width 1, slope 4 and unit depth; reach 0 drains into reach 1, which
drains out of the network. -/
def exNet : Network := ⟨[⟨2, 1, 4, 1⟩, ⟨2, 1, 4, 1⟩], fun i => if i = 0 then 1 else OUT_OF_NETWORK⟩

/-- Witness engine configuration: unit fluid density and gravity, unit
critical Shields number, active-layer thickness 10, cascade bound 5. -/
def exParams : EngineParams := ⟨1, 1, 1, 10, 5⟩

/-- Witness transport policy: one metre per unit time whenever mobile. -/
def exPol : ℚ → ℚ → ℚ → ℚ := fun _ _ _ => 1

/-- Witness initial record: on reach 0, position 0, active, volume 1. -/
def exRec0 : ParcelRecord := ⟨0, 0, true, 0, 1⟩

/-- Witness parcel: grain size 1, density 2, abrasion rate 1/2. -/
def exParcel0 : Parcel := ⟨1, 2, 1/2, "initial_bed_sed", 0, 0, [some exRec0]⟩

/-- Witness store holding the single witness parcel at timestep 0. -/
def exStore0 : ParcelStore := ⟨[exParcel0], 1⟩

/-- The state of the witness parcel after one step: advanced to position 1/2
of reach 0, volume abraded from 1 to 1/2. -/
def exRec1 : ParcelRecord := ⟨0, 1/2, true, 0, 1/2⟩

/-- The witness parcel after one step (cumulative travel distance 1). -/
def exParcel1 : Parcel := ⟨1, 2, 1/2, "initial_bed_sed", 0, 1, [some exRec0, some exRec1]⟩

/-- The witness store after one step. -/
def exStore1 : ParcelStore := ⟨[exParcel1], 2⟩

theorem c1_volume_monotone_witness : VolNoninc exParcel1 ∧ VolNonneg exParcel1 := by
  refine c1_volume_monotone exNet exPol exParams 1 1 1 exStore0 exStore1 (by norm_num)
    (fun a b c => by norm_num [exPol]) ?_ ?_ ?_ exParcel1 (by simp [exStore1])
  · intro p hp
    simp only [exStore0, List.mem_singleton] at hp
    rw [hp]
    norm_num [exParcel0]
  · intro p hp
    simp only [exStore0, List.mem_singleton] at hp
    rw [hp]
    constructor
    · simp [VolNoninc, volSeq, exParcel0, exRec0, List.filterMap]
    · intro v hv
      norm_num [volSeq, exParcel0, exRec0] at hv
      rw [← hv]
      norm_num
  · norm_num [runSteps, run_one_step, exNet, exPol, exParams, exStore0, exParcel0, exRec0,
      checkHydraulics, tauAt, setActiveFlags, setFlagsAux, flagParcel, append_timestep,
      Parcel.appendStep, lastEntry, mapExcept, stepParcel, criticalTau, advanceCascade,
      moveParcel, Parcel.mapLast, updateLast, abrade, cumVolAbove, isum, onLink,
      filoAtOrAbove, lastArrival, lastVol, capacityOf, OUT_OF_NETWORK, BAD_INDEX,
      exStore1, exParcel1, exRec1]

theorem posOK_appendStep (p : Parcel) (h : posOK p) : posOK p.appendStep :=
  (posOK_congr _ _ (lastEntry_appendStep p)).mpr h

theorem posOK_flagParcel (net : Network) (params : EngineParams) (all : List Parcel)
    (i : Nat) (p : Parcel) (h : posOK p) : posOK (flagParcel net params all i p) := by
  rcases flagParcel_shape net params all i p with hs | ⟨b, hs⟩
  · rw [hs]; exact h
  · rw [hs]
    exact (posOK_mapLast p (fun r => { r with active_layer := b })
      (fun r => ⟨rfl, rfl⟩)).mpr h

theorem lastEntry_moveParcel (p : Parcel) (e : ParcelRecord) (newlink : Int)
    (newloc dist tnow : ℚ) (he : lastEntry p = some e) :
    lastEntry (moveParcel p e newlink newloc dist tnow) =
      some { e with element_id := newlink, location_in_link := newloc,
                    volume := abrade e.volume p.abrasion_rate dist,
                    time_arrival := if newlink = e.element_id then e.time_arrival else tnow } := by
  show lastEntry (p.mapLast _) = _
  rw [lastEntry_mapLast, he]
  rfl

theorem posOK_stepParcel (net : Network) (pol : ℚ → ℚ → ℚ → ℚ) (params : EngineParams)
    (dt tnow : ℚ) (p p' : Parcel)
    (hlen : ∀ r ∈ net.reaches, 0 ≤ r.reach_length)
    (hdt : 0 ≤ dt) (hpol : ∀ a b c, 0 ≤ pol a b c)
    (hp : posOK p) (h : stepParcel net pol params dt tnow p = .ok p') : posOK p' := by
  rcases stepParcel_ok_cases net pol params dt tnow p p' h with
    hc | ⟨e, rch, newlink, newloc, hops, he, hnotout, _, _, hadv, hc⟩
  · rw [hc]; exact hp
  · have hloc := hp e (by rw [he]; rfl)
    have hloc2 : 0 ≤ e.location_in_link ∧ e.location_in_link ≤ 1 := by
      rcases hloc with h1 | h1
      · exact h1
      · exact absurd h1 hnotout
    have hdist : 0 ≤ pol p.D (tauAt params rch) (criticalTau params p) * dt :=
      mul_nonneg (hpol _ _ _) hdt
    have hres := advanceCascade_ok_pos net hlen params.max_hops e.element_id.toNat
      e.location_in_link _ newlink newloc hops hloc2.1 hloc2.2 hdist hadv
    rw [hc]
    intro e' he'
    rw [lastEntry_moveParcel p e newlink newloc _ tnow he] at he'
    simp only [Option.mem_def, Option.some.injEq] at he'
    rw [← he']
    exact hres

theorem run_one_step_posOK (net : Network) (pol : ℚ → ℚ → ℚ → ℚ) (params : EngineParams)
    (dt tnow : ℚ) (s s' : ParcelStore)
    (hlen : ∀ r ∈ net.reaches, 0 ≤ r.reach_length)
    (hdt : 0 ≤ dt) (hpol : ∀ a b c, 0 ≤ pol a b c)
    (hpos : ∀ p ∈ s.parcels, posOK p)
    (h : run_one_step net pol params dt tnow s = .ok s') :
    ∀ p ∈ s'.parcels, posOK p := by
  obtain ⟨ps, hlenps, hs', hstep⟩ := run_one_step_parcels net pol params dt tnow s s' h
  intro p' hp'
  obtain ⟨j, hj⟩ := List.mem_iff_getElem?.mp hp'
  rw [hs', setActiveFlags_parcels] at hj
  cases hq : (({ parcels := ps, num_timesteps := s.num_timesteps + 1 } :
      ParcelStore).parcels)[j]? with
  | none => rw [hq] at hj; simp at hj
  | some q =>
    rw [hq] at hj
    simp only [Option.map_some', Option.some.injEq] at hj
    have hjlen : j < ps.length := (List.getElem?_eq_some.mp hq).1
    have hjs : j < s.parcels.length := by rw [← hlenps]; exact hjlen
    have hp : s.parcels[j]? = some s.parcels[j] := List.getElem?_eq_getElem hjs
    obtain ⟨q2, hq2, hstepq⟩ := hstep j _ hp
    have hqq : q2 = q := by
      rw [hq2] at hq
      simp only [Option.some.injEq] at hq
      exact hq
    subst hqq
    have hpmem : s.parcels[j] ∈ s.parcels := mem_of_getElem?_eq hp
    have hpOK := hpos _ hpmem
    have haOK : posOK (flagParcel net params (append_timestep s).parcels j
        (s.parcels[j]).appendStep) :=
      posOK_flagParcel net params _ j _ (posOK_appendStep _ hpOK)
    have hqOK : posOK q2 :=
      posOK_stepParcel net pol params dt tnow _ q2 hlen hdt hpol haOK hstepq
    rw [← hj]
    exact posOK_flagParcel net params ps j q2 hqOK

theorem runSteps_posOK (net : Network) (pol : ℚ → ℚ → ℚ → ℚ) (params : EngineParams)
    (dt : ℚ) (hlen : ∀ r ∈ net.reaches, 0 ≤ r.reach_length)
    (hdt : 0 ≤ dt) (hpol : ∀ a b c, 0 ≤ pol a b c) :
    ∀ (n : Nat) (t0 : ℚ) (s s' : ParcelStore),
      (∀ p ∈ s.parcels, posOK p) →
      runSteps net pol params dt n t0 s = .ok s' →
      ∀ p ∈ s'.parcels, posOK p := by
  intro n
  induction n with
  | zero =>
    intro t0 s s' h1 h
    unfold runSteps at h
    simp only [Except.ok.injEq] at h
    rw [← h]
    exact h1
  | succ m ih =>
    intro t0 s s' h1 h
    unfold runSteps at h
    cases hr : run_one_step net pol params dt t0 s with
    | error e => rw [hr] at h; simp at h
    | ok s1 =>
      rw [hr] at h
      exact ih (t0 + dt) s1 s'
        (run_one_step_posOK net pol params dt t0 s s1 hlen hdt hpol h1 hr) h

/-- Claim C2: for every parcel and every timestep of a run, at the end of the
step the parcel's fractional position lies in [0, 1] or its containing reach
is the out-of-network sentinel; an intra-step overshoot beyond the end of a
reach is resolved within the same step by the cascade through downstream
reaches (`advanceCascade`) until the remainder fits or the sentinel is
reached. -/
theorem c2_position_unit_or_out (net : Network) (pol : ℚ → ℚ → ℚ → ℚ)
    (params : EngineParams) (dt t0 : ℚ) (n : Nat) (s s' : ParcelStore)
    (hlen : ∀ r ∈ net.reaches, 0 ≤ r.reach_length)
    (hdt : 0 ≤ dt) (hpol : ∀ a b c, 0 ≤ pol a b c)
    (hpos : ∀ p ∈ s.parcels, posOK p)
    (h : runSteps net pol params dt n t0 s = .ok s') :
    ∀ p ∈ s'.parcels, posOK p :=
  runSteps_posOK net pol params dt hlen hdt hpol n t0 s s' hpos h

theorem c2_position_unit_or_out_witness : posOK exParcel1 := by
  refine c2_position_unit_or_out exNet exPol exParams 1 1 1 exStore0 exStore1 ?_ (by norm_num)
    (fun a b c => by norm_num [exPol]) ?_ ?_ exParcel1 (by simp [exStore1])
  · intro r hr
    fin_cases hr <;> norm_num
  · intro p hp
    simp only [exStore0, List.mem_singleton] at hp
    subst hp
    intro e he
    have hl : lastEntry exParcel0 = some exRec0 := rfl
    rw [hl] at he
    simp only [Option.mem_def, Option.some.injEq] at he
    subst he
    norm_num [exRec0]
  · norm_num [runSteps, run_one_step, exNet, exPol, exParams, exStore0, exParcel0, exRec0,
      checkHydraulics, tauAt, setActiveFlags, setFlagsAux, flagParcel, append_timestep,
      Parcel.appendStep, lastEntry, mapExcept, stepParcel, criticalTau, advanceCascade,
      moveParcel, Parcel.mapLast, updateLast, abrade, cumVolAbove, isum, onLink,
      filoAtOrAbove, lastArrival, lastVol, capacityOf, OUT_OF_NETWORK, BAD_INDEX,
      exStore1, exParcel1, exRec1]

/-- A degenerate topology: a single zero-length reach whose downstream target
is itself, so a positive advance can never be exhausted. -/
def cycleNet : Network := ⟨[⟨0, 1, 1, 1⟩], fun _ => 0⟩

/-- Claim C8: every within-step cascade terminates with a hop count strictly
bounded by the fuel (so at most `max_hops` hops when the engine calls it), and
a topology on which the advance can never be exhausted — a zero-length reach
forming a cycle — yields `TopologyDegenerateError` for every hop budget
instead of looping forever. -/
theorem c8_cascade_bounded :
    (∀ (net : Network) (fuel link : Nat) (pos dist : ℚ) (dst : Int) (loc : ℚ) (hops : Nat),
      advanceCascade net fuel link pos dist = .ok (dst, loc, hops) → hops < fuel) ∧
    (∀ fuel : Nat, advanceCascade cycleNet fuel 0 0 1 = .error .topologyDegenerate) := by
  constructor
  · exact fun net fuel link pos dist dst loc hops h =>
      advanceCascade_hops_lt net fuel link pos dist dst loc hops h
  · intro fuel
    induction fuel with
    | zero => rfl
    | succ f ih =>
      unfold advanceCascade
      norm_num [cycleNet, OUT_OF_NETWORK, BAD_INDEX]
      have ih2 : advanceCascade (⟨[⟨0, 1, 1, 1⟩], fun _ => 0⟩ : Network) f 0 0 1 =
          Except.error NSTError.topologyDegenerate := ih
      rw [ih2]

theorem c8_cascade_bounded_witness :
    ((0 : Nat) < 5) ∧ advanceCascade cycleNet 3 0 0 1 = .error .topologyDegenerate := by
  constructor
  · exact c8_cascade_bounded.1 exNet 5 0 0 1 (Int.ofNat 0) (1/2) 0
      (by norm_num [advanceCascade, exNet, OUT_OF_NETWORK, BAD_INDEX])
  · exact c8_cascade_bounded.2 3

/-- Claim C7: whenever a step fails with any fatal error of the taxonomy, the
step commits nothing — the caller that keeps its previous store on failure
(`tryStep`) still holds exactly the prior store, and every timestep query
observes the same prior state. -/
theorem c7_no_partial_commit (net : Network) (pol : ℚ → ℚ → ℚ → ℚ) (params : EngineParams)
    (dt tnow : ℚ) (s : ParcelStore) (e : NSTError)
    (h : run_one_step net pol params dt tnow s = .error e) :
    tryStep net pol params dt tnow s = s ∧
    ∀ t : Nat, positions_at (tryStep net pol params dt tnow s) t = positions_at s t := by
  have hts : tryStep net pol params dt tnow s = s := by
    unfold tryStep
    rw [h]
  exact ⟨hts, fun t => by rw [hts]⟩

/-- A hydraulically invalid network: its single reach has negative slope, so
the depth-slope shear stress is negative. -/
def badNet : Network := ⟨[⟨2, 1, -1, 1⟩], fun _ => OUT_OF_NETWORK⟩

theorem c7_no_partial_commit_witness :
    tryStep badNet exPol exParams 1 1 exStore0 = exStore0 :=
  (c7_no_partial_commit badNet exPol exParams 1 1 exStore0 .invalidHydraulicState
    (by norm_num [run_one_step, checkHydraulics, badNet, exParams, tauAt])).1

theorem stepParcel_ok_starting_link (net : Network) (pol : ℚ → ℚ → ℚ → ℚ)
    (params : EngineParams) (dt tnow : ℚ) (p p' : Parcel)
    (h : stepParcel net pol params dt tnow p = .ok p') : p'.starting_link = p.starting_link := by
  rcases stepParcel_ok_cases net pol params dt tnow p p' h with
    he | ⟨_, _, _, _, _, _, _, _, _, _, he⟩
  · rw [he]
  · rw [he]; rfl

theorem stepParcel_ok_source (net : Network) (pol : ℚ → ℚ → ℚ → ℚ)
    (params : EngineParams) (dt tnow : ℚ) (p p' : Parcel)
    (h : stepParcel net pol params dt tnow p = .ok p') : p'.source = p.source := by
  rcases stepParcel_ok_cases net pol params dt tnow p p' h with
    he | ⟨_, _, _, _, _, _, _, _, _, _, he⟩
  · rw [he]
  · rw [he]; rfl

theorem run_one_step_length (net : Network) (pol : ℚ → ℚ → ℚ → ℚ) (params : EngineParams)
    (dt tnow : ℚ) (s s' : ParcelStore)
    (h : run_one_step net pol params dt tnow s = .ok s') :
    s'.parcels.length = s.parcels.length := by
  obtain ⟨ps, hlen, hs', _⟩ := run_one_step_parcels net pol params dt tnow s s' h
  rw [hs']
  show (setFlagsAux net params ps 0 ps).length = _
  rw [setFlagsAux_length, hlen]

theorem run_one_step_starting_link (net : Network) (pol : ℚ → ℚ → ℚ → ℚ)
    (params : EngineParams) (dt tnow : ℚ) (s s' : ParcelStore)
    (h : run_one_step net pol params dt tnow s = .ok s') :
    s'.parcels.map (fun p => p.starting_link) = s.parcels.map (fun p => p.starting_link) := by
  obtain ⟨ps, hlen, hs', hstep⟩ := run_one_step_parcels net pol params dt tnow s s' h
  have hlen' : s'.parcels.length = s.parcels.length :=
    run_one_step_length net pol params dt tnow s s' h
  apply List.ext_getElem?
  intro n
  rw [List.getElem?_map, List.getElem?_map]
  by_cases hn : n < s.parcels.length
  · have hp : s.parcels[n]? = some s.parcels[n] := List.getElem?_eq_getElem hn
    obtain ⟨q, hq, hstepq⟩ := hstep n _ hp
    have hs'n : s'.parcels[n]? = some (flagParcel net params ps n q) := by
      rw [hs', setActiveFlags_parcels]
      show (ps[n]?).map _ = _
      rw [hq]
      rfl
    rw [hs'n, hp]
    simp only [Option.map_some', Option.some.injEq]
    rw [flagParcel_starting_link,
      stepParcel_ok_starting_link net pol params dt tnow _ q hstepq,
      flagParcel_starting_link]
    rfl
  · have h1 : s.parcels[n]? = none := List.getElem?_eq_none (by omega)
    have h2 : s'.parcels[n]? = none := List.getElem?_eq_none (by omega)
    rw [h1, h2]

theorem relocAux_starting_link (ids : List Nat) (nr : Int) (np na : ℚ) :
    ∀ (j : Nat) (l : List Parcel),
      (relocAux ids nr np na j l).map (fun p => p.starting_link) =
        l.map (fun p => p.starting_link) := by
  intro j l
  induction l generalizing j with
  | nil => rfl
  | cons p ps ih =>
    unfold relocAux
    by_cases hmem : j ∈ ids
    · simp only [if_pos hmem, List.map_cons, ih (j + 1)]
      rfl
    · simp only [if_neg hmem, List.map_cons, ih (j + 1)]

/-- The per-parcel action of the Configuration 2 recycling block on the
originating-reach tag. -/
theorem recycle_sediment_starting_link (s : ParcelStore) :
    (recycle_sediment s).parcels.map (fun p => p.starting_link) =
      s.parcels.map (fun p =>
        if onLink OUT_OF_NETWORK p then OUT_OF_NETWORK else p.starting_link) := by
  show (s.parcels.map recycleParcel).map _ = _
  rw [List.map_map]
  apply List.map_congr_left
  intro p _
  simp only [Function.comp_apply]
  cases he : lastEntry p with
  | none => simp [onLink, he, recycleParcel]
  | some e =>
    by_cases hout : e.element_id = OUT_OF_NETWORK
    · simp [he, hout, onLink, Parcel.mapLast, recycleParcel]
    · simp [he, hout, onLink, recycleParcel]

/-- Used as the default parcel of list lookups in closed counterexample
statements. -/
def pDefault : Parcel := ⟨0, 0, 0, "", 0, 0, []⟩

/-- A parcel that has exited the network (its most recent entry holds the
out-of-network sentinel) while its originating reach tag is 7. -/
def exOutRec : ParcelRecord := ⟨OUT_OF_NETWORK, 1, false, 0, 1⟩

/-- The exited parcel with `starting_link = 7`. -/
def exOutParcel : Parcel := ⟨1, 2650, 0, "initial_bed_sed", 7, 0, [some exOutRec]⟩

/-- A store holding the single exited parcel. -/
def exOutStore : ParcelStore := ⟨[exOutParcel], 1⟩

/-- Claim C9 counterexample: the notebooks' recycling block is an operation
performed after parcel creation that changes `starting_link` — on a store
holding one exited parcel whose `starting_link` is 7, `recycle_sediment`
rewrites `starting_link` (to the `OUT_OF_NETWORK` sentinel, "a way to denote
it was recycled"), so the originating-reach attribute is not time-invariant. -/
theorem c9_starting_link_counterexample :
    ((recycle_sediment exOutStore).parcels.getD 0 pDefault).starting_link ≠
      (exOutStore.parcels.getD 0 pDefault).starting_link := by
  norm_num [recycle_sediment, recycleParcel, exOutStore, exOutParcel, exOutRec, lastEntry,
    pDefault, Parcel.mapLast, updateLast, OUT_OF_NETWORK, BAD_INDEX]

/-- Claim C9 (amended): the originating-reach attribute `starting_link` is
invariant under the transport step and under the store's `relocate`
operation; the notebooks' recycling block, however, deliberately overwrites
it with the `OUT_OF_NETWORK` sentinel for exactly the exited parcels it
relocates, leaving every other parcel's `starting_link` unchanged. -/
theorem c9_starting_link_amended (net : Network) (pol : ℚ → ℚ → ℚ → ℚ)
    (params : EngineParams) (dt tnow : ℚ) (s s' : ParcelStore) (ids : List Nat)
    (r : Int) (pos arr : ℚ)
    (h : run_one_step net pol params dt tnow s = .ok s') :
    s'.parcels.map (fun p => p.starting_link) = s.parcels.map (fun p => p.starting_link) ∧
    (relocate s ids r pos arr).parcels.map (fun p => p.starting_link) =
      s.parcels.map (fun p => p.starting_link) ∧
    (recycle_sediment s).parcels.map (fun p => p.starting_link) =
      s.parcels.map (fun p =>
        if onLink OUT_OF_NETWORK p then OUT_OF_NETWORK else p.starting_link) :=
  ⟨run_one_step_starting_link net pol params dt tnow s s' h,
   relocAux_starting_link ids r pos arr 0 s.parcels,
   recycle_sediment_starting_link s⟩

theorem c9_starting_link_amended_witness :
    exStore1.parcels.map (fun p => p.starting_link) =
      exStore0.parcels.map (fun p => p.starting_link) :=
  (c9_starting_link_amended exNet exPol exParams 1 1 exStore0 exStore1 [] 0 0 0
    (by norm_num [run_one_step, exNet, exPol, exParams, exStore0, exParcel0, exRec0,
      checkHydraulics, tauAt, setActiveFlags, setFlagsAux, flagParcel, append_timestep,
      Parcel.appendStep, lastEntry, mapExcept, stepParcel, criticalTau, advanceCascade,
      moveParcel, Parcel.mapLast, updateLast, abrade, cumVolAbove, isum, onLink,
      filoAtOrAbove, lastArrival, lastVol, capacityOf, OUT_OF_NETWORK, BAD_INDEX,
      exStore1, exParcel1, exRec1])).1

theorem positions_at_ok (s : ParcelStore) (t : Nat) (ht : t < s.num_timesteps) :
    positions_at s t = .ok (s.parcels.map fun p =>
      (p.history[t]?.getD none).map fun e =>
        (e.element_id, e.location_in_link, e.active_layer)) := by
  unfold positions_at
  rw [if_pos ht]

theorem relocate_num_timesteps (s : ParcelStore) (ids : List Nat) (nr : Int) (np na : ℚ) :
    (relocate s ids nr np na).num_timesteps = s.num_timesteps := rfl

theorem relocAux_getElem? (ids : List Nat) (nr : Int) (np na : ℚ) :
    ∀ (j k : Nat) (l : List Parcel),
      (relocAux ids nr np na j l)[k]? = (l[k]?).map (fun p =>
        if (j + k) ∈ ids then
          p.mapLast fun r =>
            { r with element_id := nr, location_in_link := np, time_arrival := na }
        else p) := by
  intro j k l
  induction l generalizing j k with
  | nil => simp [relocAux]
  | cons p ps ih =>
    cases k with
    | zero => simp [relocAux]
    | succ m =>
      have harith : j + 1 + m = j + (m + 1) := by omega
      simp only [relocAux, List.getElem?_cons_succ, ih (j + 1) m, harith]

/-- Claim C6: relocating a parcel to a reach `r` and fractional position `pos`
between steps and immediately querying the store at the most recent timestep
returns exactly `(r, pos)`; the relocation overwrites only the most recent
history entry of the selected parcel — every earlier entry keeps its value and
every other parcel is untouched. -/
theorem c6_relocate_roundtrip (s : ParcelStore) (i : Nat) (p : Parcel) (e : ParcelRecord)
    (r : Int) (pos arr : ℚ)
    (hW : s.WF) (hT : 0 < s.num_timesteps)
    (hp : s.parcels[i]? = some p) (he : lastEntry p = some e) :
    ∃ p', (relocate s [i] r pos arr).parcels[i]? = some p' ∧
      (∃ l, positions_at (relocate s [i] r pos arr) (s.num_timesteps - 1) = .ok l ∧
        l[i]? = some (some (r, pos, e.active_layer))) ∧
      (∀ t : Nat, t < s.num_timesteps - 1 → p'.history[t]? = p.history[t]?) ∧
      (∀ j : Nat, j ≠ i → (relocate s [i] r pos arr).parcels[j]? = s.parcels[j]?) := by
  have hpm : p ∈ s.parcels := mem_of_getElem?_eq hp
  have hplen : p.history.length = s.num_timesteps := hW p hpm
  set g : ParcelRecord → ParcelRecord := fun rc =>
    { rc with element_id := r, location_in_link := pos, time_arrival := arr } with hgdef
  have hacc : (relocate s [i] r pos arr).parcels[i]? = some (p.mapLast g) := by
    show (relocAux [i] r pos arr 0 s.parcels)[i]? = _
    rw [relocAux_getElem?, hp]
    simp
  refine ⟨p.mapLast g, hacc, ?_, ?_, ?_⟩
  · have hlast : lastEntry (p.mapLast g) = some (g e) := by
      rw [lastEntry_mapLast, he]
      rfl
    have hlen' : (p.mapLast g).history.length = s.num_timesteps := by
      show (updateLast _ _).length = _
      rw [length_updateLast, hplen]
    have hentry : (p.mapLast g).history[s.num_timesteps - 1]? = some (some (g e)) := by
      have := List.getLast?_eq_getElem? (p.mapLast g).history
      rw [hlen'] at this
      rw [← this]
      exact getLast?_history_of_lastEntry _ _ hlast
    refine ⟨(relocate s [i] r pos arr).parcels.map fun q =>
        (q.history[s.num_timesteps - 1]?.getD none).map fun ee =>
          (ee.element_id, ee.location_in_link, ee.active_layer), ?_, ?_⟩
    · exact positions_at_ok (relocate s [i] r pos arr) (s.num_timesteps - 1)
        (by rw [relocate_num_timesteps]; omega)
    · rw [List.getElem?_map, hacc]
      simp only [Option.map_some', Option.some.injEq]
      rw [hentry]
      rfl
  · intro t ht
    show (updateLast _ _)[t]? = _
    exact getElem?_updateLast_of_lt _ _ t (by omega)
  · intro j hj
    show (relocAux [i] r pos arr 0 s.parcels)[j]? = _
    rw [relocAux_getElem?]
    cases hq : s.parcels[j]? with
    | none => rfl
    | some q =>
      simp only [Option.map_some', Option.some.injEq]
      rw [if_neg]
      simp only [Nat.zero_add, List.mem_singleton]
      exact hj

theorem c6_relocate_roundtrip_witness :
    ∃ p', (relocate exStore0 [0] 3 (1/2) 7).parcels[0]? = some p' ∧
      (∃ l, positions_at (relocate exStore0 [0] 3 (1/2) 7) (exStore0.num_timesteps - 1) = .ok l ∧
        l[0]? = some (some (3, 1/2, exRec0.active_layer))) ∧
      (∀ t : Nat, t < exStore0.num_timesteps - 1 → p'.history[t]? = exParcel0.history[t]?) ∧
      (∀ j : Nat, j ≠ 0 → (relocate exStore0 [0] 3 (1/2) 7).parcels[j]? = exStore0.parcels[j]?) := by
  refine c6_relocate_roundtrip exStore0 0 exParcel0 exRec0 3 (1/2) 7 ?_ ?_ ?_ ?_
  · intro p hp
    simp only [exStore0, List.mem_singleton] at hp
    subst hp
    rfl
  · norm_num [exStore0]
  · rfl
  · rfl

/-- Claim C5: injecting `n` new parcels into reach `link` at the most recent
timestep increases the total parcel count by exactly `n`; every new parcel
reports reach `link` (at position `loc`, active, with the given arrival time
and volume) at the most recent timestep; its history entries for all earlier
timesteps are the null/absent marker; and every pre-existing parcel keeps its
index and value, so indices stay aligned across parcels of different birth
times. -/
theorem c5_pulse_injection (s : ParcelStore) (n : Nat) (link : Int)
    (loc arrival vol dsize dens rate : ℚ) (src : String) (start : Int)
    (hT : 0 < s.num_timesteps) :
    (add_item s n link loc arrival vol dsize dens rate src start).parcels.length =
      s.parcels.length + n ∧
    (∀ i : Nat, s.parcels.length ≤ i → i < s.parcels.length + n →
      ∃ p, (add_item s n link loc arrival vol dsize dens rate src start).parcels[i]? = some p ∧
        p.history.length = s.num_timesteps ∧
        p.history[s.num_timesteps - 1]? = some (some ⟨link, loc, true, arrival, vol⟩) ∧
        (∀ t : Nat, t < s.num_timesteps - 1 → p.history[t]? = some none)) ∧
    (∀ j : Nat, j < s.parcels.length →
      (add_item s n link loc arrival vol dsize dens rate src start).parcels[j]? =
        s.parcels[j]?) := by
  refine ⟨?_, ?_, ?_⟩
  · show (s.parcels ++ List.replicate n _).length = _
    rw [List.length_append, List.length_replicate]
  · intro i hi1 hi2
    refine ⟨newParcelOf s link loc arrival vol dsize dens rate src start, ?_, ?_, ?_, ?_⟩
    · show (s.parcels ++ List.replicate n _)[i]? = _
      rw [List.getElem?_append_right hi1, List.getElem?_replicate,
        if_pos (by omega)]
    · show (List.replicate (s.num_timesteps - 1) none ++ [_]).length = _
      rw [List.length_append, List.length_replicate]
      simp only [List.length_singleton]
      omega
    · show (List.replicate (s.num_timesteps - 1) (none : Option ParcelRecord) ++ [_])[_]? = _
      rw [List.getElem?_append_right (by rw [List.length_replicate])]
      rw [List.length_replicate]
      simp
    · intro t ht
      show (List.replicate (s.num_timesteps - 1) (none : Option ParcelRecord) ++ [_])[t]? = _
      rw [List.getElem?_append_left (by rw [List.length_replicate]; omega),
        List.getElem?_replicate, if_pos (by omega)]
  · intro j hj
    show (s.parcels ++ List.replicate n _)[j]? = _
    rw [List.getElem?_append_left hj]

/-- The notebooks' pulse scenario store just before the pulse: timestep index
50 is the most recent of 51 recorded timesteps. -/
def exPulseStore : ParcelStore := ⟨[], 51⟩

theorem c5_pulse_injection_witness :
    (add_item exPulseStore 200 5 (1/2) 50 2 (2/25) 2650 0 "pulse" 5).parcels.length =
      exPulseStore.parcels.length + 200 ∧
    (∀ i : Nat, exPulseStore.parcels.length ≤ i → i < exPulseStore.parcels.length + 200 →
      ∃ p, (add_item exPulseStore 200 5 (1/2) 50 2 (2/25) 2650 0 "pulse" 5).parcels[i]?
          = some p ∧
        p.history.length = exPulseStore.num_timesteps ∧
        p.history[exPulseStore.num_timesteps - 1]? = some (some ⟨5, 1/2, true, 50, 2⟩) ∧
        (∀ t : Nat, t < exPulseStore.num_timesteps - 1 → p.history[t]? = some none)) ∧
    (∀ j : Nat, j < exPulseStore.parcels.length →
      (add_item exPulseStore 200 5 (1/2) 50 2 (2/25) 2650 0 "pulse" 5).parcels[j]? =
        exPulseStore.parcels[j]?) :=
  c5_pulse_injection exPulseStore 200 5 (1/2) 50 2 (2/25) 2650 0 "pulse" 5
    (by norm_num [exPulseStore])

theorem lastVol_appendStep (p : Parcel) : lastVol p.appendStep = lastVol p := by
  unfold lastVol
  rw [lastEntry_appendStep]

theorem lastVol_flagParcel (net : Network) (params : EngineParams) (all : List Parcel)
    (i : Nat) (p : Parcel) : lastVol (flagParcel net params all i p) = lastVol p := by
  rcases flagParcel_shape net params all i p with hs | ⟨b, hs⟩
  · rw [hs]
  · rw [hs]
    exact lastVol_mapLast p _ (fun r => rfl)

theorem lastVol_stepParcel_zero_rate (net : Network) (pol : ℚ → ℚ → ℚ → ℚ)
    (params : EngineParams) (dt tnow : ℚ) (p p' : Parcel)
    (hrate : p.abrasion_rate = 0) (hvol : 0 ≤ lastVol p)
    (h : stepParcel net pol params dt tnow p = .ok p') : lastVol p' = lastVol p := by
  rcases stepParcel_ok_cases net pol params dt tnow p p' h with
    hc | ⟨e, rch, newlink, newloc, hops, he, _, _, _, _, hc⟩
  · rw [hc]
  · have hpe : lastVol p = e.volume := by unfold lastVol; rw [he]
    have hl : lastVol (moveParcel p e newlink newloc
        (pol p.D (tauAt params rch) (criticalTau params p) * dt) tnow) =
        abrade e.volume p.abrasion_rate
          (pol p.D (tauAt params rch) (criticalTau params p) * dt) := by
      unfold lastVol
      rw [lastEntry_moveParcel p e newlink newloc _ tnow he]
    rw [hc, hl, hrate, abrade_zero_rate e.volume _ (by rw [← hpe]; exact hvol), hpe]

theorem lastVol_stepParcel_nonneg (net : Network) (pol : ℚ → ℚ → ℚ → ℚ)
    (params : EngineParams) (dt tnow : ℚ) (p p' : Parcel)
    (hvol : 0 ≤ lastVol p)
    (h : stepParcel net pol params dt tnow p = .ok p') : 0 ≤ lastVol p' := by
  rcases stepParcel_ok_cases net pol params dt tnow p p' h with
    hc | ⟨e, rch, newlink, newloc, hops, he, _, _, _, _, hc⟩
  · rw [hc]; exact hvol
  · have hl : lastVol (moveParcel p e newlink newloc
        (pol p.D (tauAt params rch) (criticalTau params p) * dt) tnow) =
        abrade e.volume p.abrasion_rate
          (pol p.D (tauAt params rch) (criticalTau params p) * dt) := by
      unfold lastVol
      rw [lastEntry_moveParcel p e newlink newloc _ tnow he]
    rw [hc, hl]
    exact abrade_nonneg _ _ _

theorem run_one_step_zero_rate_volumes (net : Network) (pol : ℚ → ℚ → ℚ → ℚ)
    (params : EngineParams) (dt tnow : ℚ) (s s' : ParcelStore)
    (hrate : ∀ p ∈ s.parcels, p.abrasion_rate = 0)
    (hvol : ∀ p ∈ s.parcels, 0 ≤ lastVol p)
    (h : run_one_step net pol params dt tnow s = .ok s') :
    s'.parcels.map lastVol = s.parcels.map lastVol ∧
    (∀ p ∈ s'.parcels, p.abrasion_rate = 0) ∧
    (∀ p ∈ s'.parcels, 0 ≤ lastVol p) := by
  obtain ⟨ps, hlen, hs', hstep⟩ := run_one_step_parcels net pol params dt tnow s s' h
  have hlen' : s'.parcels.length = s.parcels.length :=
    run_one_step_length net pol params dt tnow s s' h
  have hptwise : ∀ (n : Nat) (hn : n < s.parcels.length),
      ∃ q, s'.parcels[n]? = some (flagParcel net params ps n q) ∧ ps[n]? = some q ∧
        lastVol (flagParcel net params ps n q) = lastVol s.parcels[n] ∧
        (flagParcel net params ps n q).abrasion_rate = (s.parcels[n]).abrasion_rate := by
    intro n hn
    have hp : s.parcels[n]? = some s.parcels[n] := List.getElem?_eq_getElem hn
    obtain ⟨q, hq, hstepq⟩ := hstep n _ hp
    have hmem : s.parcels[n] ∈ s.parcels := mem_of_getElem?_eq hp
    have hs'n : s'.parcels[n]? = some (flagParcel net params ps n q) := by
      rw [hs', setActiveFlags_parcels]
      show (ps[n]?).map _ = _
      rw [hq]
      rfl
    have hra : (flagParcel net params (append_timestep s).parcels n
        (s.parcels[n]).appendStep).abrasion_rate = (s.parcels[n]).abrasion_rate := by
      rw [flagParcel_abrasion_rate]
      rfl
    have hva : lastVol (flagParcel net params (append_timestep s).parcels n
        (s.parcels[n]).appendStep) = lastVol s.parcels[n] := by
      rw [lastVol_flagParcel, lastVol_appendStep]
    have hvq : lastVol q = lastVol s.parcels[n] := by
      rw [← hva]
      exact lastVol_stepParcel_zero_rate net pol params dt tnow _ q
        (by rw [hra]; exact hrate _ hmem) (by rw [hva]; exact hvol _ hmem) hstepq
    have hrq : q.abrasion_rate = (s.parcels[n]).abrasion_rate := by
      rw [stepParcel_ok_abrasion_rate net pol params dt tnow _ q hstepq, hra]
    exact ⟨q, hs'n, hq, by rw [lastVol_flagParcel, hvq], by rw [flagParcel_abrasion_rate, hrq]⟩
  refine ⟨?_, ?_, ?_⟩
  · apply List.ext_getElem?
    intro n
    rw [List.getElem?_map, List.getElem?_map]
    by_cases hn : n < s.parcels.length
    · obtain ⟨q, hs'n, _, hv, _⟩ := hptwise n hn
      rw [hs'n, List.getElem?_eq_getElem hn]
      simp only [Option.map_some', Option.some.injEq]
      exact hv
    · rw [List.getElem?_eq_none (by omega), List.getElem?_eq_none (by omega)]
  · intro p' hp'
    obtain ⟨n, hn⟩ := List.mem_iff_getElem?.mp hp'
    have hnlt : n < s.parcels.length := by
      have := (List.getElem?_eq_some.mp hn).1
      omega
    obtain ⟨q, hs'n, _, _, hr⟩ := hptwise n hnlt
    rw [hn] at hs'n
    simp only [Option.some.injEq] at hs'n
    rw [hs'n, hr]
    exact hrate _ (mem_of_getElem?_eq (List.getElem?_eq_getElem hnlt))
  · intro p' hp'
    obtain ⟨n, hn⟩ := List.mem_iff_getElem?.mp hp'
    have hnlt : n < s.parcels.length := by
      have := (List.getElem?_eq_some.mp hn).1
      omega
    obtain ⟨q, hs'n, _, hv, _⟩ := hptwise n hnlt
    rw [hn] at hs'n
    simp only [Option.some.injEq] at hs'n
    rw [hs'n, hv]
    exact hvol _ (mem_of_getElem?_eq (List.getElem?_eq_getElem hnlt))

/-- Whether a parcel's most recent entry carries the out-of-network sentinel
(the notebooks' `mask_exited`). -/
def isExited (p : Parcel) : Bool :=
  onLink OUT_OF_NETWORK p

theorem totalVol_partition_aux (l : List Parcel) :
    (l.map lastVol).sum =
      ((l.filter fun p =>
        match lastEntry p with
        | some e => decide (e.element_id ≠ OUT_OF_NETWORK)
        | none => false).map lastVol).sum +
      ((l.filter fun p =>
        match lastEntry p with
        | some e => decide (e.element_id = OUT_OF_NETWORK)
        | none => false).map lastVol).sum := by
  induction l with
  | nil => simp
  | cons p ps ih =>
    cases he : lastEntry p with
    | none =>
      have hv : lastVol p = 0 := by unfold lastVol; rw [he]
      simp [List.filter_cons, he, hv, ih]
    | some e =>
      by_cases hout : e.element_id = OUT_OF_NETWORK
      · simp [List.filter_cons, he, hout, ih]
        ring
      · simp [List.filter_cons, he, hout, ih]
        ring

theorem totalVol_partition (s : ParcelStore) :
    totalLastVolume s = inNetVolume s + exitedVolume s :=
  totalVol_partition_aux s.parcels

theorem recycleParcel_of_none (p : Parcel) (he : lastEntry p = none) :
    recycleParcel p = p := by
  unfold recycleParcel
  rw [he]

theorem recycleParcel_of_in_network (p : Parcel) (e : ParcelRecord)
    (he : lastEntry p = some e) (hout : ¬e.element_id = OUT_OF_NETWORK) :
    recycleParcel p = p := by
  unfold recycleParcel
  rw [he]
  simp [hout]

theorem recycleParcel_of_exited (p : Parcel) (e : ParcelRecord)
    (he : lastEntry p = some e) (hout : e.element_id = OUT_OF_NETWORK) :
    recycleParcel p = Parcel.mapLast { p with starting_link := OUT_OF_NETWORK }
      (fun r => { r with location_in_link := 0, element_id := 1 }) := by
  unfold recycleParcel
  rw [he]
  simp [hout]

theorem lastEntry_recycleParcel_not_exited (p : Parcel) :
    (match lastEntry (recycleParcel p) with
      | some e => decide (e.element_id = OUT_OF_NETWORK)
      | none => false) = false := by
  cases he : lastEntry p with
  | none => rw [recycleParcel_of_none p he, he]
  | some e =>
    by_cases hout : e.element_id = OUT_OF_NETWORK
    · rw [recycleParcel_of_exited p e he hout]
      have hl : lastEntry (Parcel.mapLast { p with starting_link := OUT_OF_NETWORK }
          (fun r => { r with location_in_link := 0, element_id := 1 })) =
          some { e with location_in_link := 0, element_id := 1 } := by
        rw [lastEntry_mapLast]
        show (lastEntry p).map _ = _
        rw [he]
        rfl
      rw [hl]
      simp [OUT_OF_NETWORK, BAD_INDEX]
    · rw [recycleParcel_of_in_network p e he hout, he]
      simp [hout]

theorem lastVol_recycleParcel (p : Parcel) : lastVol (recycleParcel p) = lastVol p := by
  cases he : lastEntry p with
  | none => rw [recycleParcel_of_none p he]
  | some e =>
    by_cases hout : e.element_id = OUT_OF_NETWORK
    · rw [recycleParcel_of_exited p e he hout]
      have h2 : lastVol (Parcel.mapLast { p with starting_link := OUT_OF_NETWORK }
          (fun r => { r with location_in_link := 0, element_id := 1 })) =
          lastVol { p with starting_link := OUT_OF_NETWORK } :=
        lastVol_mapLast _ _ (fun r => rfl)
      rw [h2]
      rfl
    · rw [recycleParcel_of_in_network p e he hout]

theorem rate_recycleParcel (p : Parcel) :
    (recycleParcel p).abrasion_rate = p.abrasion_rate := by
  cases he : lastEntry p with
  | none => rw [recycleParcel_of_none p he]
  | some e =>
    by_cases hout : e.element_id = OUT_OF_NETWORK
    · rw [recycleParcel_of_exited p e he hout]
      rfl
    · rw [recycleParcel_of_in_network p e he hout]

theorem recycle_sediment_lastVol (s : ParcelStore) :
    (recycle_sediment s).parcels.map lastVol = s.parcels.map lastVol := by
  show (s.parcels.map recycleParcel).map lastVol = _
  rw [List.map_map]
  exact List.map_congr_left fun p _ => lastVol_recycleParcel p

theorem exitedVolume_recycle_sediment (s : ParcelStore) :
    exitedVolume (recycle_sediment s) = 0 := by
  unfold exitedVolume
  have hnil : (recycle_sediment s).parcels.filter (fun p =>
      match lastEntry p with
      | some e => decide (e.element_id = OUT_OF_NETWORK)
      | none => false) = [] := by
    rw [List.filter_eq_nil_iff]
    intro p' hp'
    obtain ⟨p, _, hpp⟩ := List.mem_map.mp hp'
    rw [← hpp]
    simp only [lastEntry_recycleParcel_not_exited p, Bool.false_eq_true, not_false_eq_true]
  rw [hnil]
  rfl

theorem totalLastVolume_recycle_sediment (s : ParcelStore) :
    totalLastVolume (recycle_sediment s) = totalLastVolume s := by
  unfold totalLastVolume
  rw [recycle_sediment_lastVol]

theorem runRecycling_conserve (net : Network) (pol : ℚ → ℚ → ℚ → ℚ) (params : EngineParams)
    (dt : ℚ) :
    ∀ (n : Nat) (t0 : ℚ) (s s' : ParcelStore),
      (∀ p ∈ s.parcels, p.abrasion_rate = 0) →
      (∀ p ∈ s.parcels, 0 ≤ lastVol p) →
      runRecycling net pol params dt n t0 s = .ok s' →
      totalLastVolume s' = totalLastVolume s ∧
      (∀ p ∈ s'.parcels, p.abrasion_rate = 0) ∧
      (∀ p ∈ s'.parcels, 0 ≤ lastVol p) := by
  intro n
  induction n with
  | zero =>
    intro t0 s s' h1 h2 h
    unfold runRecycling at h
    simp only [Except.ok.injEq] at h
    rw [← h]
    exact ⟨rfl, h1, h2⟩
  | succ m ih =>
    intro t0 s s' h1 h2 h
    unfold runRecycling at h
    cases hr : run_one_step net pol params dt t0 (recycle_sediment s) with
    | error e => rw [hr] at h; simp at h
    | ok s1 =>
      rw [hr] at h
      have hrc1 : ∀ p ∈ (recycle_sediment s).parcels, p.abrasion_rate = 0 := by
        intro p' hp'
        obtain ⟨p, hpm, hpp⟩ := List.mem_map.mp hp'
        rw [← hpp, rate_recycleParcel]
        exact h1 p hpm
      have hrc2 : ∀ p ∈ (recycle_sediment s).parcels, 0 ≤ lastVol p := by
        intro p' hp'
        obtain ⟨p, hpm, hpp⟩ := List.mem_map.mp hp'
        rw [← hpp, lastVol_recycleParcel]
        exact h2 p hpm
      obtain ⟨hmap, hr1, hr2⟩ := run_one_step_zero_rate_volumes net pol params dt t0
        (recycle_sediment s) s1 hrc1 hrc2 hr
      obtain ⟨htot, hs1, hs2⟩ := ih (t0 + dt) s1 s' hr1 hr2 h
      refine ⟨?_, hs1, hs2⟩
      rw [htot]
      show (s1.parcels.map lastVol).sum = _
      rw [hmap]
      exact totalLastVolume_recycle_sediment s

/-- Claim C4: under the notebooks' recycling policy — before each step every
parcel at the out-of-network sentinel is relocated to reach 1, position 0 —
and with the bed-material initializer's zero abrasion rates, the total parcel
volume is conserved exactly over any number of steps; the in-network volume
after the run equals the initial total minus exactly the volume of the
parcels that exited during the final step, and the recycling relocation
restores the in-network volume to exactly the initial total (mass
conservation under recycling). -/
theorem c4_mass_conservation_recycling (net : Network) (pol : ℚ → ℚ → ℚ → ℚ)
    (params : EngineParams) (dt t0 : ℚ) (n : Nat) (s s' : ParcelStore)
    (hrate : ∀ p ∈ s.parcels, p.abrasion_rate = 0)
    (hvol : ∀ p ∈ s.parcels, 0 ≤ lastVol p)
    (h : runRecycling net pol params dt n t0 s = .ok s') :
    totalLastVolume s' = totalLastVolume s ∧
    inNetVolume s' = totalLastVolume s - exitedVolume s' ∧
    inNetVolume (recycle_sediment s') = totalLastVolume s := by
  obtain ⟨htot, _, _⟩ := runRecycling_conserve net pol params dt n t0 s s' hrate hvol h
  have hpart := totalVol_partition s'
  have hpart2 := totalVol_partition (recycle_sediment s')
  rw [exitedVolume_recycle_sediment] at hpart2
  rw [totalLastVolume_recycle_sediment, htot] at hpart2
  refine ⟨htot, by rw [← htot]; linarith, by linarith⟩

/-- A zero-abrasion record: on reach 0 at position 0, active, volume 1. -/
def exZRec : ParcelRecord := ⟨0, 0, true, 0, 1⟩

/-- A zero-abrasion-rate parcel, as created by the bed-material initializer. -/
def exZParcel : Parcel := ⟨1, 2, 0, "initial_bed_sed", 0, 0, [some exZRec]⟩

/-- The zero-abrasion witness store at timestep 0. -/
def exZStore : ParcelStore := ⟨[exZParcel], 1⟩

/-- The zero-abrasion witness record after one recycling step. -/
def exZRec1 : ParcelRecord := ⟨0, 1/2, true, 0, 1⟩

/-- The zero-abrasion witness parcel after one recycling step. -/
def exZParcel1 : Parcel := ⟨1, 2, 0, "initial_bed_sed", 0, 1, [some exZRec, some exZRec1]⟩

/-- The zero-abrasion witness store after one recycling step. -/
def exZStore1 : ParcelStore := ⟨[exZParcel1], 2⟩

theorem c4_mass_conservation_recycling_witness :
    totalLastVolume exZStore1 = totalLastVolume exZStore ∧
    inNetVolume exZStore1 = totalLastVolume exZStore - exitedVolume exZStore1 ∧
    inNetVolume (recycle_sediment exZStore1) = totalLastVolume exZStore := by
  refine c4_mass_conservation_recycling exNet exPol exParams 1 1 1 exZStore exZStore1 ?_ ?_ ?_
  · intro p hp
    simp only [exZStore, List.mem_singleton] at hp
    subst hp
    rfl
  · intro p hp
    simp only [exZStore, List.mem_singleton] at hp
    subst hp
    norm_num [lastVol, lastEntry, exZParcel, exZRec]
  · norm_num [runRecycling, run_one_step, recycle_sediment, recycleParcel, exNet, exPol,
      exParams, exZStore, exZParcel, exZRec, checkHydraulics, tauAt, setActiveFlags,
      setFlagsAux, flagParcel, append_timestep, Parcel.appendStep, lastEntry, mapExcept,
      stepParcel, criticalTau, advanceCascade, moveParcel, Parcel.mapLast, updateLast,
      abrade, cumVolAbove, isum, onLink, filoAtOrAbove, lastArrival, lastVol, capacityOf,
      OUT_OF_NETWORK, BAD_INDEX, exZStore1, exZParcel1, exZRec1]

theorem onLink_appendStep (link : Int) (p : Parcel) :
    onLink link p.appendStep = onLink link p := by
  unfold onLink
  rw [lastEntry_appendStep]

theorem onLink_flagParcel (net : Network) (params : EngineParams) (all : List Parcel)
    (i : Nat) (link : Int) (p : Parcel) :
    onLink link (flagParcel net params all i p) = onLink link p := by
  rcases flagParcel_shape net params all i p with hs | ⟨b, hs⟩
  · rw [hs]
  · rw [hs]
    exact onLink_mapLast p (fun r => { r with active_layer := b }) (fun r => rfl) link

theorem stepParcel_ok_of_exited (net : Network) (pol : ℚ → ℚ → ℚ → ℚ)
    (params : EngineParams) (dt tnow : ℚ) (p p' : Parcel)
    (hex : isExited p = true)
    (h : stepParcel net pol params dt tnow p = .ok p') : p' = p := by
  rcases stepParcel_ok_cases net pol params dt tnow p p' h with
    hc | ⟨e, rch, newlink, newloc, hops, he, hnotout, _, _, _, _⟩
  · exact hc
  · exfalso
    unfold isExited onLink at hex
    rw [he] at hex
    simp only [decide_eq_true_eq] at hex
    exact hnotout hex

theorem run_one_step_exited (net : Network) (pol : ℚ → ℚ → ℚ → ℚ) (params : EngineParams)
    (dt tnow : ℚ) (s s' : ParcelStore) (j : Nat) (p : Parcel)
    (h : run_one_step net pol params dt tnow s = .ok s')
    (hp : s.parcels[j]? = some p) (hex : isExited p = true) :
    ∃ p', s'.parcels[j]? = some p' ∧ p'.source = p.source ∧ isExited p' = true := by
  obtain ⟨ps, hlen, hs', hstep⟩ := run_one_step_parcels net pol params dt tnow s s' h
  obtain ⟨q, hq, hstepq⟩ := hstep j p hp
  have hs'j : s'.parcels[j]? = some (flagParcel net params ps j q) := by
    rw [hs', setActiveFlags_parcels]
    show (ps[j]?).map _ = _
    rw [hq]
    rfl
  have hexa : isExited (flagParcel net params (append_timestep s).parcels j p.appendStep)
      = true := by
    unfold isExited
    rw [onLink_flagParcel, onLink_appendStep]
    exact hex
  have hqa : q = flagParcel net params (append_timestep s).parcels j p.appendStep :=
    stepParcel_ok_of_exited net pol params dt tnow _ q hexa hstepq
  refine ⟨flagParcel net params ps j q, hs'j, ?_, ?_⟩
  · rw [flagParcel_source, hqa, flagParcel_source]
    rfl
  · unfold isExited
    rw [onLink_flagParcel, hqa]
    unfold isExited at hexa
    exact hexa

theorem recycleOnlyBedParcel_of_none (p : Parcel) (he : lastEntry p = none) :
    recycleOnlyBedParcel p = p := by
  unfold recycleOnlyBedParcel
  rw [he]

theorem recycleOnlyBedParcel_of_unmasked (p : Parcel) (e : ParcelRecord)
    (he : lastEntry p = some e)
    (hmask : ¬(e.element_id = OUT_OF_NETWORK ∧ p.source = "initial_bed_sed")) :
    recycleOnlyBedParcel p = p := by
  unfold recycleOnlyBedParcel
  rw [he]
  simp only [if_neg hmask]

theorem recycleOnlyBedParcel_of_masked (p : Parcel) (e : ParcelRecord)
    (he : lastEntry p = some e)
    (hmask : e.element_id = OUT_OF_NETWORK ∧ p.source = "initial_bed_sed") :
    recycleOnlyBedParcel p = Parcel.mapLast { p with starting_link := -2 }
      (fun r => { r with location_in_link := 0, element_id := 1 }) := by
  unfold recycleOnlyBedParcel
  rw [he]
  simp only [if_pos hmask]

theorem runFilteredRecycling_keeps_exited (net : Network) (pol : ℚ → ℚ → ℚ → ℚ)
    (params : EngineParams) (dt : ℚ) :
    ∀ (n : Nat) (t0 : ℚ) (s s' : ParcelStore) (j : Nat) (p : Parcel),
      runFilteredRecycling net pol params dt n t0 s = .ok s' →
      s.parcels[j]? = some p → p.source ≠ "initial_bed_sed" → isExited p = true →
      ∃ p', s'.parcels[j]? = some p' ∧ p'.source = p.source ∧ isExited p' = true := by
  intro n
  induction n with
  | zero =>
    intro t0 s s' j p h hp hsrc hex
    unfold runFilteredRecycling at h
    simp only [Except.ok.injEq] at h
    rw [← h]
    exact ⟨p, hp, rfl, hex⟩
  | succ m ih =>
    intro t0 s s' j p h hp hsrc hex
    unfold runFilteredRecycling at h
    cases hr : run_one_step net pol params dt t0 (recycle_only_bed_sediment s) with
    | error e => rw [hr] at h; simp at h
    | ok s1 =>
      rw [hr] at h
      have hexE : ∃ e, lastEntry p = some e ∧ e.element_id = OUT_OF_NETWORK := by
        unfold isExited onLink at hex
        cases he : lastEntry p with
        | none => rw [he] at hex; simp at hex
        | some e =>
          rw [he] at hex
          simp only [decide_eq_true_eq] at hex
          exact ⟨e, rfl, hex⟩
      obtain ⟨e, he, hout⟩ := hexE
      have hrp : recycleOnlyBedParcel p = p :=
        recycleOnlyBedParcel_of_unmasked p e he (by
          intro hc
          exact hsrc hc.2)
      have hrj : (recycle_only_bed_sediment s).parcels[j]? = some p := by
        show (s.parcels.map recycleOnlyBedParcel)[j]? = _
        rw [List.getElem?_map, hp]
        simp [hrp]
      obtain ⟨p1, hp1, hsrc1, hex1⟩ := run_one_step_exited net pol params dt t0
        (recycle_only_bed_sediment s) s1 j p hr hrj hex
      obtain ⟨p', hp', hsrc', hex'⟩ := ih (t0 + dt) s1 s' j p1 h hp1
        (by rw [hsrc1]; exact hsrc) hex1
      exact ⟨p', hp', by rw [hsrc', hsrc1], hex'⟩

/-- Claim C10: the Configuration 3 relocation mask is the conjunction of
"reach equals the out-of-network sentinel" and "source equals
initial_bed_sed": a parcel matching both is moved to reach 1 at position 0
(with `starting_link` set to -2), every other parcel — in particular every
exited pulse-tagged parcel — is untouched; and across any number of
filtered-recycling steps an exited parcel whose source is not
"initial_bed_sed" keeps the sentinel as its reach forever. -/
theorem c10_filtered_recycling_mask (net : Network) (pol : ℚ → ℚ → ℚ → ℚ)
    (params : EngineParams) (dt : ℚ) :
    (∀ (s : ParcelStore) (j : Nat) (p : Parcel), s.parcels[j]? = some p →
      ∃ p', (recycle_only_bed_sediment s).parcels[j]? = some p' ∧
        ((isExited p && decide (p.source = "initial_bed_sed")) = true →
          p'.starting_link = -2 ∧ ∃ e, lastEntry p = some e ∧
            lastEntry p' = some { e with location_in_link := 0, element_id := 1 }) ∧
        ((isExited p && decide (p.source = "initial_bed_sed")) = false → p' = p)) ∧
    (∀ (n : Nat) (t0 : ℚ) (s s' : ParcelStore) (j : Nat) (p : Parcel),
      runFilteredRecycling net pol params dt n t0 s = .ok s' →
      s.parcels[j]? = some p → p.source ≠ "initial_bed_sed" → isExited p = true →
      ∃ p', s'.parcels[j]? = some p' ∧ p'.source = p.source ∧ isExited p' = true) := by
  constructor
  · intro s j p hp
    have hacc : (recycle_only_bed_sediment s).parcels[j]? = some (recycleOnlyBedParcel p) := by
      show (s.parcels.map recycleOnlyBedParcel)[j]? = _
      rw [List.getElem?_map, hp]
      rfl
    refine ⟨recycleOnlyBedParcel p, hacc, ?_, ?_⟩
    · intro hmask
      simp only [Bool.and_eq_true, decide_eq_true_eq] at hmask
      obtain ⟨hex, hsrc⟩ := hmask
      have hexE : ∃ e, lastEntry p = some e ∧ e.element_id = OUT_OF_NETWORK := by
        unfold isExited onLink at hex
        cases he : lastEntry p with
        | none => rw [he] at hex; simp at hex
        | some e =>
          rw [he] at hex
          simp only [decide_eq_true_eq] at hex
          exact ⟨e, rfl, hex⟩
      obtain ⟨e, he, hout⟩ := hexE
      rw [recycleOnlyBedParcel_of_masked p e he ⟨hout, hsrc⟩]
      refine ⟨rfl, e, he, ?_⟩
      rw [lastEntry_mapLast]
      show (lastEntry p).map _ = _
      rw [he]
      rfl
    · intro hmask
      cases he : lastEntry p with
      | none => exact recycleOnlyBedParcel_of_none p he
      | some e =>
        refine recycleOnlyBedParcel_of_unmasked p e he ?_
        rintro ⟨hout, hsrc⟩
        have hex : isExited p = true := by
          unfold isExited onLink
          rw [he]
          simp [hout]
        rw [hex, hsrc] at hmask
        simp at hmask
  · exact runFilteredRecycling_keeps_exited net pol params dt

/-- An exited pulse-tagged parcel (source "pulse", sitting at the sentinel). -/
def exPulseOutParcel : Parcel := ⟨1, 2, 0, "pulse", 5, 0, [some exOutRec]⟩

/-- A store holding one exited initial-bed parcel and one exited pulse
parcel. -/
def exMixStore : ParcelStore := ⟨[exOutParcel, exPulseOutParcel], 1⟩

/-- The initial-bed parcel of the mixed store after one filtered-recycling
step: relocated to reach 1 at position 0, starting_link tagged -2, immobile
(its critical stress far exceeds the bed stress). -/
def exMixParcelBed : Parcel :=
  ⟨1, 2650, 0, "initial_bed_sed", -2, 0, [some ⟨1, 0, false, 0, 1⟩, some ⟨1, 0, true, 0, 1⟩]⟩

/-- The pulse parcel of the mixed store after one filtered-recycling step:
still at the out-of-network sentinel. -/
def exMixParcelPulse : Parcel :=
  ⟨1, 2, 0, "pulse", 5, 0, [some ⟨-2, 1, false, 0, 1⟩, some ⟨-2, 1, false, 0, 1⟩]⟩

/-- The mixed store after one filtered-recycling step. -/
def exMixStore1 : ParcelStore := ⟨[exMixParcelBed, exMixParcelPulse], 2⟩

/-- The mixed store right after the filtered-recycling relocation, before the
step: the initial-bed parcel sits on reach 1 at position 0 with
starting_link -2, the pulse parcel still sits at the sentinel. -/
def exMixRecycled : ParcelStore :=
  ⟨[⟨1, 2650, 0, "initial_bed_sed", -2, 0, [some ⟨1, 0, false, 0, 1⟩]⟩, exPulseOutParcel], 1⟩

theorem c10_filtered_recycling_mask_witness :
    (∃ p', (recycle_only_bed_sediment exMixStore).parcels[1]? = some p' ∧
      ((isExited exPulseOutParcel &&
          decide (exPulseOutParcel.source = "initial_bed_sed")) = true →
        p'.starting_link = -2 ∧ ∃ e, lastEntry exPulseOutParcel = some e ∧
          lastEntry p' = some { e with location_in_link := 0, element_id := 1 }) ∧
      ((isExited exPulseOutParcel &&
          decide (exPulseOutParcel.source = "initial_bed_sed")) = false →
        p' = exPulseOutParcel)) ∧
    (∃ p', exMixStore1.parcels[1]? = some p' ∧ p'.source = exPulseOutParcel.source ∧
      isExited p' = true) := by
  constructor
  · exact (c10_filtered_recycling_mask exNet exPol exParams 1).1 exMixStore 1
      exPulseOutParcel (by simp [exMixStore])
  · refine (c10_filtered_recycling_mask exNet exPol exParams 1).2 1 1 exMixStore exMixStore1 1
      exPulseOutParcel ?_ (by simp [exMixStore]) ?_ ?_
    · have hstr : ¬("pulse" = "initial_bed_sed") := by decide
      have h1 : recycle_only_bed_sediment exMixStore = exMixRecycled := by
        norm_num [recycle_only_bed_sediment, recycleOnlyBedParcel, exMixStore, exOutParcel,
          exOutRec, exPulseOutParcel, lastEntry, Parcel.mapLast, updateLast, exMixRecycled,
          OUT_OF_NETWORK, BAD_INDEX, hstr]
      have h2 : run_one_step exNet exPol exParams 1 1 exMixRecycled = .ok exMixStore1 := by
        norm_num [run_one_step, exNet, exPol, exParams, exMixRecycled, exPulseOutParcel,
          exOutRec, checkHydraulics, tauAt, setActiveFlags, setFlagsAux, flagParcel,
          append_timestep, Parcel.appendStep, lastEntry, mapExcept, stepParcel, criticalTau,
          advanceCascade, moveParcel, Parcel.mapLast, updateLast, abrade, cumVolAbove, isum,
          onLink, filoAtOrAbove, lastArrival, lastVol, capacityOf, OUT_OF_NETWORK, BAD_INDEX,
          exMixStore1, exMixParcelBed, exMixParcelPulse]
      norm_num [runFilteredRecycling, h1, h2]
    · show ¬exPulseOutParcel.source = "initial_bed_sed"
      simp only [exPulseOutParcel]
      decide
    · norm_num [isExited, onLink, lastEntry, exPulseOutParcel, exOutRec,
        OUT_OF_NETWORK, BAD_INDEX]

theorem isum_le_ptwise (f g : Nat → Parcel → ℚ) :
    ∀ (j0 : Nat) (l : List Parcel),
      (∀ (k : Nat) (p : Parcel), l[k]? = some p → f (j0 + k) p ≤ g (j0 + k) p) →
      isum f j0 l ≤ isum g j0 l := by
  intro j0 l
  induction l generalizing j0 with
  | nil => intro _; exact le_refl 0
  | cons p ps ih =>
    intro h
    have h0 : f j0 p ≤ g j0 p := by
      have := h 0 p (by simp)
      simpa using this
    have hrest : isum f (j0 + 1) ps ≤ isum g (j0 + 1) ps := by
      refine ih (j0 + 1) ?_
      intro k q hq
      have harith : j0 + (k + 1) = j0 + 1 + k := by omega
      have := h (k + 1) q (by simpa using hq)
      rw [harith] at this
      exact this
    show f j0 p + isum f (j0 + 1) ps ≤ g j0 p + isum g (j0 + 1) ps
    exact add_le_add h0 hrest

theorem isum_eq_zero (f : Nat → Parcel → ℚ) :
    ∀ (j0 : Nat) (l : List Parcel),
      (∀ (k : Nat) (p : Parcel), l[k]? = some p → f (j0 + k) p = 0) →
      isum f j0 l = 0 := by
  intro j0 l
  induction l generalizing j0 with
  | nil => intro _; rfl
  | cons p ps ih =>
    intro h
    have h0 : f j0 p = 0 := by
      have := h 0 p (by simp)
      simpa using this
    have hrest : isum f (j0 + 1) ps = 0 := by
      refine ih (j0 + 1) ?_
      intro k q hq
      have harith : j0 + (k + 1) = j0 + 1 + k := by omega
      have := h (k + 1) q (by simpa using hq)
      rw [harith] at this
      exact this
    show f j0 p + isum f (j0 + 1) ps = 0
    rw [h0, hrest]
    ring

theorem isum_congr_lists (f g : Nat → Parcel → ℚ) :
    ∀ (j0 : Nat) (l l' : List Parcel), l'.length = l.length →
      (∀ (k : Nat) (p p' : Parcel), l[k]? = some p → l'[k]? = some p' →
        f (j0 + k) p = g (j0 + k) p') →
      isum f j0 l = isum g j0 l' := by
  intro j0 l
  induction l generalizing j0 with
  | nil =>
    intro l' hlen _
    cases l' with
    | nil => rfl
    | cons q qs => simp at hlen
  | cons p ps ih =>
    intro l' hlen h
    cases l' with
    | nil => simp at hlen
    | cons q qs =>
      have h0 : f j0 p = g j0 q := by
        have := h 0 p q (by simp) (by simp)
        simpa using this
      have hrest : isum f (j0 + 1) ps = isum g (j0 + 1) qs := by
        refine ih (j0 + 1) qs (by simpa using hlen) ?_
        intro k a b ha hb
        have harith : j0 + (k + 1) = j0 + 1 + k := by omega
        have := h (k + 1) a b (by simpa using ha) (by simpa using hb)
        rw [harith] at this
        exact this
      show f j0 p + isum f (j0 + 1) ps = g j0 q + isum g (j0 + 1) qs
      rw [h0, hrest]

theorem filoAtOrAbove_refl (t : ℚ) (i : Nat) : filoAtOrAbove t i t i = true := by
  unfold filoAtOrAbove
  simp

theorem filoAtOrAbove_total (tj : ℚ) (j : Nat) (ti : ℚ) (i : Nat) :
    filoAtOrAbove tj j ti i = true ∨ filoAtOrAbove ti i tj j = true := by
  unfold filoAtOrAbove
  rcases lt_trichotomy ti tj with h | h | h
  · left; simp [h]
  · rcases Nat.le_total j i with h2 | h2
    · left; simp [h, h2]
    · right; simp [h.symm, h2]
  · right; simp [h]

theorem filoAtOrAbove_trans (ta : ℚ) (a : Nat) (tb : ℚ) (b : Nat) (tc : ℚ) (c : Nat)
    (h1 : filoAtOrAbove ta a tb b = true) (h2 : filoAtOrAbove tb b tc c = true) :
    filoAtOrAbove ta a tc c = true := by
  unfold filoAtOrAbove at h1 h2 ⊢
  simp only [Bool.or_eq_true, Bool.and_eq_true, decide_eq_true_eq] at h1 h2 ⊢
  rcases h1 with h1 | ⟨h1e, h1n⟩ <;> rcases h2 with h2 | ⟨h2e, h2n⟩
  · left; exact lt_trans h2 h1
  · left; rw [← h2e]; exact h1
  · left; rw [h1e]; exact h2
  · right; exact ⟨h1e.trans h2e, le_trans h1n h2n⟩

/-- The deepest stack slot among a list of (arrival time, index) keys: every
key in the list sits at or above the returned one. -/
def minAbove : List (ℚ × Nat) → Option (ℚ × Nat)
  | [] => none
  | a :: l =>
    match minAbove l with
    | none => some a
    | some m => some (if filoAtOrAbove a.1 a.2 m.1 m.2 then m else a)

theorem minAbove_eq_none (l : List (ℚ × Nat)) (h : minAbove l = none) : l = [] := by
  cases l with
  | nil => rfl
  | cons a t =>
    unfold minAbove at h
    cases hm : minAbove t with
    | none => rw [hm] at h; simp at h
    | some m => rw [hm] at h; simp at h

theorem minAbove_spec (l : List (ℚ × Nat)) (m : ℚ × Nat) (h : minAbove l = some m) :
    m ∈ l ∧ ∀ x ∈ l, filoAtOrAbove x.1 x.2 m.1 m.2 = true := by
  induction l generalizing m with
  | nil => simp [minAbove] at h
  | cons a t ih =>
    unfold minAbove at h
    cases hm : minAbove t with
    | none =>
      rw [hm] at h
      simp only [Option.some.injEq] at h
      have ht : t = [] := minAbove_eq_none t hm
      subst ht
      rw [← h]
      exact ⟨by simp, by
        intro x hx
        simp only [List.mem_singleton] at hx
        rw [hx]
        exact filoAtOrAbove_refl a.1 a.2⟩
    | some m0 =>
      rw [hm] at h
      simp only [Option.some.injEq] at h
      obtain ⟨hm0mem, hm0all⟩ := ih m0 hm
      by_cases hcmp : filoAtOrAbove a.1 a.2 m0.1 m0.2 = true
      · rw [if_pos hcmp] at h
        rw [← h]
        refine ⟨List.mem_cons_of_mem a hm0mem, ?_⟩
        intro x hx
        rcases List.mem_cons.mp hx with hx | hx
        · rw [hx]; exact hcmp
        · exact hm0all x hx
      · rw [if_neg hcmp] at h
        rw [← h]
        have hma : filoAtOrAbove m0.1 m0.2 a.1 a.2 = true := by
          rcases filoAtOrAbove_total a.1 a.2 m0.1 m0.2 with hc | hc
          · exact absurd hc hcmp
          · exact hc
        refine ⟨List.mem_cons_self a t, ?_⟩
        intro x hx
        rcases List.mem_cons.mp hx with hx | hx
        · rw [hx]; exact filoAtOrAbove_refl a.1 a.2
        · exact filoAtOrAbove_trans x.1 x.2 m0.1 m0.2 a.1 a.2 (hm0all x hx) hma

/-- The (arrival time, index) keys of the parcels flagged active on `link`. -/
def activeKeys (link : Int) : Nat → List Parcel → List (ℚ × Nat)
  | _, [] => []
  | j, p :: ps =>
    (if onLink link p && lastActive p then [(lastArrival p, j)] else [])
      ++ activeKeys link (j + 1) ps

theorem mem_activeKeys_of (link : Int) :
    ∀ (j0 k : Nat) (l : List Parcel) (p : Parcel), l[k]? = some p →
      (onLink link p && lastActive p) = true →
      (lastArrival p, j0 + k) ∈ activeKeys link j0 l := by
  intro j0 k l
  induction l generalizing j0 k with
  | nil => intro p hp; simp at hp
  | cons q qs ih =>
    intro p hp hact
    cases k with
    | zero =>
      simp only [List.getElem?_cons_zero, Option.some.injEq] at hp
      subst hp
      unfold activeKeys
      rw [hact]
      simp
    | succ m =>
      simp only [List.getElem?_cons_succ] at hp
      have := ih (j0 + 1) m p hp hact
      unfold activeKeys
      have harith : j0 + (m + 1) = j0 + 1 + m := by omega
      rw [harith]
      exact List.mem_append_right _ this

theorem of_mem_activeKeys (link : Int) :
    ∀ (j0 : Nat) (l : List Parcel) (t : ℚ) (k : Nat),
      (t, k) ∈ activeKeys link j0 l →
      ∃ (m : Nat) (p : Parcel), l[m]? = some p ∧ k = j0 + m ∧ t = lastArrival p ∧
        (onLink link p && lastActive p) = true := by
  intro j0 l
  induction l generalizing j0 with
  | nil => intro t k h; simp [activeKeys] at h
  | cons q qs ih =>
    intro t k h
    unfold activeKeys at h
    rcases List.mem_append.mp h with h | h
    · by_cases hact : (onLink link q && lastActive q) = true
      · rw [hact] at h
        simp only [if_true, List.mem_singleton, Prod.mk.injEq] at h
        exact ⟨0, q, by simp, by omega, h.1, hact⟩
      · rw [Bool.not_eq_true] at hact
        rw [hact] at h
        simp at h
    · obtain ⟨m, p, hp, hk, ht, hact⟩ := ih (j0 + 1) t k h
      exact ⟨m + 1, p, by simpa using hp, by omega, ht, hact⟩

theorem lastActive_mapLast_setFlag (p : Parcel) (e : ParcelRecord) (b : Bool)
    (he : lastEntry p = some e) :
    lastActive (p.mapLast fun r => { r with active_layer := b }) = b := by
  unfold lastActive
  rw [lastEntry_mapLast, he]
  rfl

theorem lastArrival_flagParcel (net : Network) (params : EngineParams) (all : List Parcel)
    (i : Nat) (p : Parcel) : lastArrival (flagParcel net params all i p) = lastArrival p := by
  rcases flagParcel_shape net params all i p with hs | ⟨b, hs⟩
  · rw [hs]
  · rw [hs]
    exact lastArrival_mapLast p (fun r => { r with active_layer := b }) (fun r => rfl)

theorem flagParcel_active_spec (net : Network) (params : EngineParams) (all : List Parcel)
    (i : Nat) (p : Parcel)
    (hact : lastActive (flagParcel net params all i p) = true) :
    ∃ e rch, lastEntry p = some e ∧ ¬e.element_id < 0 ∧
      net.reaches[e.element_id.toNat]? = some rch ∧
      cumVolAbove all e.element_id e.time_arrival i ≤ capacityOf params rch := by
  unfold flagParcel at hact
  cases he : lastEntry p with
  | none =>
    rw [he] at hact
    simp only at hact
    unfold lastActive at hact
    rw [he] at hact
    simp at hact
  | some e =>
    rw [he] at hact
    simp only at hact
    by_cases hneg : e.element_id < 0
    · rw [if_pos hneg] at hact
      rw [lastActive_mapLast_setFlag p e false he] at hact
      simp at hact
    · rw [if_neg hneg] at hact
      cases hr : net.reaches[e.element_id.toNat]? with
      | none =>
        rw [hr] at hact
        rw [lastActive_mapLast_setFlag p e false he] at hact
        simp at hact
      | some rch =>
        rw [hr] at hact
        rw [lastActive_mapLast_setFlag p e _ he] at hact
        rw [decide_eq_true_eq] at hact
        exact ⟨e, rch, rfl, hneg, hr, hact⟩

theorem cumVolAbove_setFlagsAux (net : Network) (params : EngineParams) (ps : List Parcel)
    (link : Int) (ti : ℚ) (i : Nat) :
    cumVolAbove (setFlagsAux net params ps 0 ps) link ti i = cumVolAbove ps link ti i := by
  unfold cumVolAbove
  refine (isum_congr_lists _ _ 0 ps (setFlagsAux net params ps 0 ps)
    (setFlagsAux_length net params ps 0 ps) ?_).symm
  intro k p p' hp hp'
  rw [setFlagsAux_getElem? net params ps 0 k ps, hp] at hp'
  simp only [Nat.zero_add, Option.map_some', Option.some.injEq] at hp'
  rw [← hp']
  rw [onLink_flagParcel, lastArrival_flagParcel, lastVol_flagParcel]

/-- Claim C3: for every reach, at the end of any step of the engine, the
summed volume of the parcels flagged as in the active layer on that reach is
at most the reach's active-layer capacity — active-layer thickness times
channel width times reach length. -/
theorem c3_active_layer_capacity (net : Network) (pol : ℚ → ℚ → ℚ → ℚ)
    (params : EngineParams) (dt tnow : ℚ) (s s' : ParcelStore)
    (hth : 0 ≤ params.active_layer_thickness)
    (hgeom : ∀ r ∈ net.reaches, 0 ≤ r.channel_width ∧ 0 ≤ r.reach_length)
    (hvol : ∀ p ∈ s.parcels, 0 ≤ lastVol p)
    (h : run_one_step net pol params dt tnow s = .ok s')
    (link : Nat) (rch : Reach) (hl : net.reaches[link]? = some rch) :
    activeVolumeOn s' (Int.ofNat link) ≤ capacityOf params rch := by
  obtain ⟨ps, hlen, hs', hstep⟩ := run_one_step_parcels net pol params dt tnow s s' h
  have hcap : 0 ≤ capacityOf params rch := by
    obtain ⟨hw, hr⟩ := hgeom rch (mem_of_getElem?_eq hl)
    exact mul_nonneg (mul_nonneg hth hw) hr
  have hvolps : ∀ (k : Nat) (q : Parcel), ps[k]? = some q → 0 ≤ lastVol q := by
    intro k q hq
    have hk : k < ps.length := (List.getElem?_eq_some.mp hq).1
    have hks : k < s.parcels.length := by omega
    have hp : s.parcels[k]? = some s.parcels[k] := List.getElem?_eq_getElem hks
    obtain ⟨q2, hq2, hstepq⟩ := hstep k _ hp
    have hqq : q2 = q := by
      rw [hq2] at hq
      simp only [Option.some.injEq] at hq
      exact hq
    subst hqq
    refine lastVol_stepParcel_nonneg net pol params dt tnow _ q2 ?_ hstepq
    rw [lastVol_flagParcel, lastVol_appendStep]
    exact hvol _ (mem_of_getElem?_eq hp)
  set L : List Parcel := setFlagsAux net params ps 0 ps with hLdef
  have hsL : s'.parcels = L := by
    rw [hs']
    rfl
  have hLacc : ∀ (k : Nat) (p' : Parcel), L[k]? = some p' →
      ∃ q, ps[k]? = some q ∧ p' = flagParcel net params ps k q := by
    intro k p' hp'
    rw [hLdef, setFlagsAux_getElem? net params ps 0 k ps] at hp'
    cases hq : ps[k]? with
    | none => rw [hq] at hp'; simp at hp'
    | some q =>
      rw [hq] at hp'
      simp only [Nat.zero_add, Option.map_some', Option.some.injEq] at hp'
      exact ⟨q, rfl, hp'.symm⟩
  have hvolL : ∀ (k : Nat) (p' : Parcel), L[k]? = some p' → 0 ≤ lastVol p' := by
    intro k p' hp'
    obtain ⟨q, hq, hpq⟩ := hLacc k p' hp'
    rw [hpq, lastVol_flagParcel]
    exact hvolps k q hq
  show activeVolumeOn s' (Int.ofNat link) ≤ capacityOf params rch
  unfold activeVolumeOn
  rw [hsL]
  cases hmin : minAbove (activeKeys (Int.ofNat link) 0 L) with
  | none =>
    have hnil : activeKeys (Int.ofNat link) 0 L = [] := minAbove_eq_none _ hmin
    have hz : isum (fun _ p => if onLink (Int.ofNat link) p && lastActive p
        then lastVol p else 0) 0 L = 0 := by
      refine isum_eq_zero _ 0 L ?_
      intro k p hp
      by_cases hact : (onLink (Int.ofNat link) p && lastActive p) = true
      · exfalso
        have := mem_activeKeys_of (Int.ofNat link) 0 k L p hp hact
        rw [hnil] at this
        simp at this
      · rw [Bool.not_eq_true] at hact
        rw [hact]
        rfl
    rw [hz]
    exact hcap
  | some m =>
    obtain ⟨hmmem, hmall⟩ := minAbove_spec _ m hmin
    obtain ⟨istar, pstar, hpstar, hkidx, htstar, hactstar⟩ :=
      of_mem_activeKeys (Int.ofNat link) 0 L m.1 m.2 (by
        rw [← Prod.mk.eta (p := m)] at hmmem
        exact hmmem)
    simp only [Nat.zero_add] at hkidx
    obtain ⟨qstar, hqstar, hpq⟩ := hLacc istar pstar hpstar
    have hactq : lastActive (flagParcel net params ps istar qstar) = true := by
      rw [← hpq]
      exact (Bool.and_eq_true _ _ |>.mp hactstar).2
    obtain ⟨e, rch2, he, hneg, hr2, hcum⟩ :=
      flagParcel_active_spec net params ps istar qstar hactq
    have honl : onLink (Int.ofNat link) qstar = true := by
      have := (Bool.and_eq_true _ _ |>.mp hactstar).1
      rw [hpq, onLink_flagParcel] at this
      exact this
    have helem : e.element_id = Int.ofNat link := by
      unfold onLink at honl
      rw [he] at honl
      exact decide_eq_true_eq.mp honl
    have hrch2 : rch2 = rch := by
      rw [helem] at hr2
      have htn : (Int.ofNat link).toNat = link := rfl
      rw [htn] at hr2
      rw [hl] at hr2
      simp only [Option.some.injEq] at hr2
      exact hr2.symm
    have harr : e.time_arrival = m.1 := by
      rw [htstar, hpq, lastArrival_flagParcel]
      unfold lastArrival
      rw [he]
    have hbound : cumVolAbove ps (Int.ofNat link) m.1 m.2 ≤ capacityOf params rch := by
      rw [← harr, ← helem, hkidx]
      rw [hrch2] at hcum
      exact hcum
    have hmono : isum (fun _ p => if onLink (Int.ofNat link) p && lastActive p
        then lastVol p else 0) 0 L ≤
        isum (fun j p => if onLink (Int.ofNat link) p &&
          filoAtOrAbove (lastArrival p) j m.1 m.2 then lastVol p else 0) 0 L := by
      refine isum_le_ptwise _ _ 0 L ?_
      intro k p hp
      simp only [Nat.zero_add]
      by_cases hact : (onLink (Int.ofNat link) p && lastActive p) = true
      · rw [hact]
        have hkey := mem_activeKeys_of (Int.ofNat link) 0 k L p hp hact
        simp only [Nat.zero_add] at hkey
        have habove := hmall (lastArrival p, k) hkey
        simp only at habove
        rw [(Bool.and_eq_true _ _ |>.mp hact).1, habove]
        simp
      · rw [Bool.not_eq_true] at hact
        rw [hact]
        simp only [Bool.false_eq_true, if_false]
        by_cases hcond : (onLink (Int.ofNat link) p &&
            filoAtOrAbove (lastArrival p) k m.1 m.2) = true
        · rw [hcond]
          simp only [if_true]
          exact hvolL k p hp
        · rw [Bool.not_eq_true] at hcond
          rw [hcond]
          simp
    have hcum2 : isum (fun j p => if onLink (Int.ofNat link) p &&
        filoAtOrAbove (lastArrival p) j m.1 m.2 then lastVol p else 0) 0 L =
        cumVolAbove ps (Int.ofNat link) m.1 m.2 := by
      show cumVolAbove L (Int.ofNat link) m.1 m.2 = _
      rw [hLdef]
      exact cumVolAbove_setFlagsAux net params ps (Int.ofNat link) m.1 m.2
    calc isum (fun _ p => if onLink (Int.ofNat link) p && lastActive p
        then lastVol p else 0) 0 L
        ≤ isum (fun j p => if onLink (Int.ofNat link) p &&
            filoAtOrAbove (lastArrival p) j m.1 m.2 then lastVol p else 0) 0 L := hmono
      _ = cumVolAbove ps (Int.ofNat link) m.1 m.2 := hcum2
      _ ≤ capacityOf params rch := hbound

theorem c3_active_layer_capacity_witness :
    activeVolumeOn exStore1 (Int.ofNat 0) ≤ capacityOf exParams ⟨2, 1, 4, 1⟩ := by
  refine c3_active_layer_capacity exNet exPol exParams 1 1 exStore0 exStore1
    (by norm_num [exParams]) ?_ ?_ ?_ 0 ⟨2, 1, 4, 1⟩ (by norm_num [exNet])
  · intro r hr
    fin_cases hr <;> constructor <;> norm_num
  · intro p hp
    simp only [exStore0, List.mem_singleton] at hp
    subst hp
    norm_num [lastVol, lastEntry, exParcel0, exRec0]
  · norm_num [run_one_step, exNet, exPol, exParams, exStore0, exParcel0, exRec0,
      checkHydraulics, tauAt, setActiveFlags, setFlagsAux, flagParcel, append_timestep,
      Parcel.appendStep, lastEntry, mapExcept, stepParcel, criticalTau, advanceCascade,
      moveParcel, Parcel.mapLast, updateLast, abrade, cumVolAbove, isum, onLink,
      filoAtOrAbove, lastArrival, lastVol, capacityOf, OUT_OF_NETWORK, BAD_INDEX,
      exStore1, exParcel1, exRec1]
